import Mathlib

/-!
Verification of the `treemd` markdown query engine against its specification.

This file gives a shallow embedding, in Lean 4, of the parts of the source
that the specification's claims talk about:

* the runtime value system (`src/query/value.rs`): the `Value` sum type,
  truthiness, `to_text`, polymorphic `get_property`, and `slugify`;
* selected built-in functions (`src/query/builtins/mod.rs`): `fn_sort`,
  `fn_any`, `fn_all`, `fn_matches`, `fn_slugify`;
* the registry's suggestion machinery (`src/query/registry.rs`):
  `levenshtein` and `suggest_function`;
* the document model (`src/parser/document.rs`): `find_heading`,
  `get_heading_level`, `extract_section` and `build_tree`.

Modelling conventions, applied throughout:

* Rust `String`/`&str` values are modelled as Lean `String` or `List Char`;
  byte indices into UTF-8 text are modelled as character indices (the two
  agree on ASCII text, and all concrete inputs used below are ASCII).
  Rust's Unicode `to_lowercase`/`is_alphanumeric`/`is_whitespace` are
  modelled by their ASCII restrictions.
* Rust `f64` numbers are modelled by `Int`: the claims under verification
  evaluate numbers only at integral values, where IEEE-754 arithmetic and
  printing agree with the integer model (`NaN` and `-0.0` are outside the
  model, and `to_text`'s `fract() == 0.0` branch is always the one taken).
* `Result<Vec<Value>, QueryError>` becomes `Except QueryError (List Value)`.
* `IndexMap<String, Value>` (insertion-ordered map) becomes an association
  list `List (String × Value)`.
-/

namespace Treemd

/-- Error type of the query engine (`src/query/error.rs`).  Only the shape
matters for the claims below: the modelled built-ins never construct one. -/
inductive QueryError where
  | invalidRegex (pattern error : String)
  | divisionByZero
  | other (msg : String)
deriving DecidableEq, Repr

/-- Heading element value (`HeadingValue` in `src/query/value.rs`). -/
structure HeadingValue where
  level : Nat
  text : String
  offset : Nat
  line : Nat
  content : String
  raw_md : String
  index : Nat
deriving DecidableEq, Repr

/-- Code block element value (`CodeValue` in `src/query/value.rs`). -/
structure CodeValue where
  language : Option String
  content : String
  start_line : Nat
  end_line : Nat
deriving DecidableEq, Repr

/-- Link type (`LinkType` in `src/query/value.rs`). -/
inductive LinkType where
  | anchor
  | relative
  | wikiLink
  | external
deriving DecidableEq, Repr

/-- `LinkType::as_str` from `src/query/value.rs`. -/
def LinkType.as_str : LinkType → String
  | .anchor => "anchor"
  | .relative => "relative"
  | .wikiLink => "wikilink"
  | .external => "external"

/-- Link element value (`LinkValue` in `src/query/value.rs`). -/
structure LinkValue where
  text : String
  url : String
  link_type : LinkType
  offset : Nat
deriving DecidableEq, Repr

/-- Image element value (`ImageValue` in `src/query/value.rs`). -/
structure ImageValue where
  alt : String
  src : String
  title : Option String
deriving DecidableEq, Repr

/-- Table element value (`TableValue` in `src/query/value.rs`). -/
structure TableValue where
  headers : List String
  rows : List (List String)
  alignments : List String
deriving DecidableEq, Repr

/-- List item value (`ListItemValue` in `src/query/value.rs`). -/
structure ListItemValue where
  content : String
  checked : Option Bool
deriving DecidableEq, Repr

/-- List element value (`ListValue` in `src/query/value.rs`). -/
structure ListValue where
  ordered : Bool
  items : List ListItemValue
deriving DecidableEq, Repr

/-- Blockquote element value (`BlockquoteValue` in `src/query/value.rs`). -/
structure BlockquoteValue where
  content : String
deriving DecidableEq, Repr

/-- Paragraph element value (`ParagraphValue` in `src/query/value.rs`). -/
structure ParagraphValue where
  content : String
deriving DecidableEq, Repr

/-- Document value (`DocumentValue` in `src/query/value.rs`). -/
structure DocumentValue where
  content : String
  heading_count : Nat
  word_count : Nat
deriving DecidableEq, Repr

/-- Runtime value of the query language (`Value` in `src/query/value.rs`).
Constructor names are the Rust variant names, lowercased to avoid clashing
with the Lean types `Bool`, `String`, `List`.  `Number(f64)` is modelled as
`number (n : Int)` and `Object(IndexMap<String, Value>)` as an association
list, as explained in the file header. -/
inductive Value where
  | null
  | bool (b : Bool)
  | number (n : Int)
  | string (s : String)
  | array (a : List Value)
  | object (o : List (String × Value))
  | heading (h : HeadingValue)
  | code (c : CodeValue)
  | link (l : LinkValue)
  | image (i : ImageValue)
  | table (t : TableValue)
  | list (l : ListValue)
  | blockquote (b : BlockquoteValue)
  | paragraph (p : ParagraphValue)
  | document (d : DocumentValue)
  | frontMatter (fm : List (String × Value))

/-- `Value::is_truthy` from `src/query/value.rs`: `Null`, `false`, `0`,
`""`, `[]` and the empty object are falsy; everything else (in particular
every element value) is truthy. -/
def Value.is_truthy : Value → Bool
  | .null => false
  | .bool b => b
  | .number n => n != 0
  | .string s => !s.isEmpty
  | .array a => !a.isEmpty
  | .object o => !o.isEmpty
  | _ => true

/-- C7: `is_truthy` is `false` exactly on `Null`, `Bool(false)`, `Number(0)`,
the empty `String`, the empty `Array` and the empty `Object`; every element
value (`Heading`, `Code`, `Link`, `Image`, `Table`, `List`, `Blockquote`,
`Paragraph`, `Document`, `FrontMatter`) is truthy unconditionally, whatever
its payload. -/
theorem is_truthy_false_iff (v : Value) :
    (v.is_truthy = false ↔
      v = .null ∨ v = .bool false ∨ v = .number 0 ∨ v = .string "" ∨
        v = .array [] ∨ v = .object []) ∧
    ((∀ h, (Value.heading h).is_truthy = true) ∧
     (∀ c, (Value.code c).is_truthy = true) ∧
     (∀ l, (Value.link l).is_truthy = true) ∧
     (∀ i, (Value.image i).is_truthy = true) ∧
     (∀ t, (Value.table t).is_truthy = true) ∧
     (∀ l, (Value.list l).is_truthy = true) ∧
     (∀ b, (Value.blockquote b).is_truthy = true) ∧
     (∀ p, (Value.paragraph p).is_truthy = true) ∧
     (∀ d, (Value.document d).is_truthy = true) ∧
     (∀ fm, (Value.frontMatter fm).is_truthy = true)) := by
  constructor
  · cases v <;>
      simp [Value.is_truthy, String.isEmpty_iff, List.isEmpty_iff]
  · exact ⟨fun _ => rfl, fun _ => rfl, fun _ => rfl, fun _ => rfl, fun _ => rfl,
      fun _ => rfl, fun _ => rfl, fun _ => rfl, fun _ => rfl, fun _ => rfl⟩

/-- JSON escaping of one character, modelling the common escapes produced by
`serde_json` (used by `Value::to_text` for `Object`/`FrontMatter` payloads).
Control characters beyond the named ones are kept verbatim rather than
`\uXXXX`-escaped; no claim below inspects such output. -/
def jsonEscapeChar (c : Char) : String :=
  if c = '"' then "\\\""
  else if c = '\\' then "\\\\"
  else if c = '\n' then "\\n"
  else if c = '\r' then "\\r"
  else if c = '\t' then "\\t"
  else String.singleton c

/-- A JSON string literal: quoted, escaped. -/
def jsonQuote (s : String) : String :=
  "\"" ++ String.join (s.data.map jsonEscapeChar) ++ "\""

/-- JSON serialization of a `HeadingValue`, per its serde attributes
(`content` skipped when empty, `raw_md` and `index` always skipped). -/
def jsonOfHeading (h : HeadingValue) : String :=
  "\x7b\"level\":" ++ toString h.level ++ ",\"text\":" ++ jsonQuote h.text ++
    ",\"offset\":" ++ toString h.offset ++ ",\"line\":" ++ toString h.line ++
    (if h.content.isEmpty then "" else ",\"content\":" ++ jsonQuote h.content) ++ "\x7d"

/-- JSON serialization of a `CodeValue` (`language` skipped when `None`). -/
def jsonOfCode (c : CodeValue) : String :=
  "\x7b" ++
    (match c.language with
     | some l => "\"language\":" ++ jsonQuote l ++ ","
     | none => "") ++
    "\"content\":" ++ jsonQuote c.content ++
    ",\"start_line\":" ++ toString c.start_line ++
    ",\"end_line\":" ++ toString c.end_line ++ "\x7d"

/-- JSON serialization of a `LinkValue`. -/
def jsonOfLink (l : LinkValue) : String :=
  "\x7b\"text\":" ++ jsonQuote l.text ++ ",\"url\":" ++ jsonQuote l.url ++
    ",\"type\":" ++ jsonQuote l.link_type.as_str ++
    ",\"offset\":" ++ toString l.offset ++ "\x7d"

/-- JSON serialization of an `ImageValue` (`title` skipped when `None`). -/
def jsonOfImage (i : ImageValue) : String :=
  "\x7b\"alt\":" ++ jsonQuote i.alt ++ ",\"src\":" ++ jsonQuote i.src ++
    (match i.title with
     | some t => ",\"title\":" ++ jsonQuote t
     | none => "") ++ "\x7d"

/-- JSON serialization of a list of strings. -/
def jsonOfStrings (l : List String) : String :=
  "[" ++ String.intercalate "," (l.map jsonQuote) ++ "]"

/-- JSON serialization of a `TableValue`. -/
def jsonOfTable (t : TableValue) : String :=
  "\x7b\"headers\":" ++ jsonOfStrings t.headers ++
    ",\"rows\":[" ++ String.intercalate "," (t.rows.map jsonOfStrings) ++ "]" ++
    ",\"alignments\":" ++ jsonOfStrings t.alignments ++ "\x7d"

/-- JSON serialization of a `ListItemValue` (`checked` skipped when `None`). -/
def jsonOfListItem (i : ListItemValue) : String :=
  "\x7b\"content\":" ++ jsonQuote i.content ++
    (match i.checked with
     | some b => ",\"checked\":" ++ (if b then "true" else "false")
     | none => "") ++ "\x7d"

/-- JSON serialization of a `ListValue`. -/
def jsonOfListValue (l : ListValue) : String :=
  "\x7b\"ordered\":" ++ (if l.ordered then "true" else "false") ++
    ",\"items\":[" ++ String.intercalate "," (l.items.map jsonOfListItem) ++ "]\x7d"

/-- JSON serialization of a `DocumentValue`. -/
def jsonOfDocument (d : DocumentValue) : String :=
  "\x7b\"content\":" ++ jsonQuote d.content ++
    ",\"heading_count\":" ++ toString d.heading_count ++
    ",\"word_count\":" ++ toString d.word_count ++ "\x7d"

mutual

/-- JSON rendering of a `Value`, modelling `serde_json::to_string` on the
untagged `Value` serialization in `src/query/value.rs` (element values
serialize as objects of their fields, respecting the serde skip
attributes; see the per-kind helpers above). -/
def jsonOfValue : Value → String
  | .null => "null"
  | .bool b => if b then "true" else "false"
  | .number n => toString n
  | .string s => jsonQuote s
  | .array a => "[" ++ jsonOfList a ++ "]"
  | .object o => "\x7b" ++ jsonOfPairs o ++ "\x7d"
  | .heading h => jsonOfHeading h
  | .code c => jsonOfCode c
  | .link l => jsonOfLink l
  | .image i => jsonOfImage i
  | .table t => jsonOfTable t
  | .list l => jsonOfListValue l
  | .blockquote b => "\x7b\"content\":" ++ jsonQuote b.content ++ "\x7d"
  | .paragraph p => "\x7b\"content\":" ++ jsonQuote p.content ++ "\x7d"
  | .document d => jsonOfDocument d
  | .frontMatter fm => "\x7b" ++ jsonOfPairs fm ++ "\x7d"

/-- Comma-joined JSON rendering of array elements. -/
def jsonOfList : List Value → String
  | [] => ""
  | [v] => jsonOfValue v
  | v :: vs => jsonOfValue v ++ "," ++ jsonOfList vs

/-- Comma-joined JSON rendering of object entries. -/
def jsonOfPairs : List (String × Value) → String
  | [] => ""
  | [(k, v)] => jsonQuote k ++ ":" ++ jsonOfValue v
  | (k, v) :: ps => jsonQuote k ++ ":" ++ jsonOfValue v ++ "," ++ jsonOfPairs ps

end

mutual

/-- `Value::to_text` from `src/query/value.rs`.  `Number` prints via the
`fract() == 0.0` branch (always taken in the integer model); `Array` joins
the members' texts with newlines; `Object`/`FrontMatter` render as JSON. -/
def Value.to_text : Value → String
  | .null => ""
  | .bool b => if b then "true" else "false"
  | .number n => toString n
  | .string s => s
  | .array a => String.intercalate "\n" (toTextList a)
  | .object o => jsonOfValue (.object o)
  | .heading h => h.text
  | .code c => c.content
  | .link l => l.text
  | .image i => i.alt
  | .table t =>
      "Table(" ++ toString t.headers.length ++ "x" ++ toString t.rows.length ++ ")"
  | .list l => String.intercalate "\n" (l.items.map (·.content))
  | .blockquote b => b.content
  | .paragraph p => p.content
  | .document d => d.content
  | .frontMatter fm => jsonOfValue (.object fm)

/-- `to_text` mapped over array members. -/
def toTextList : List Value → List String
  | [] => []
  | v :: vs => v.to_text :: toTextList vs

end

/-- Lexicographic order on character lists by code point.  On UTF-8 encoded
text this coincides with Rust's byte-wise `String::cmp` (UTF-8 byte order
agrees with code-point order), so `charListLe a.data b.data` models
`a.cmp(&b).is_le()` for Rust strings. -/
def charListLe : List Char → List Char → Bool
  | [], _ => true
  | _ :: _, [] => false
  | x :: xs, y :: ys =>
      if x.toNat < y.toNat then true
      else if y.toNat < x.toNat then false
      else charListLe xs ys

theorem charListLe_total (a b : List Char) : charListLe a b || charListLe b a := by
  induction a generalizing b with
  | nil => simp [charListLe]
  | cons x xs ih =>
    cases b with
    | nil => simp [charListLe]
    | cons y ys =>
      simp only [charListLe]
      rcases Nat.lt_trichotomy x.toNat y.toNat with h | h | h
      · simp [h, Nat.not_lt.mpr (Nat.le_of_lt h)]
      · simp only [h, Nat.lt_irrefl, if_false, if_neg]
        simpa using ih ys
      · simp [h, Nat.not_lt.mpr (Nat.le_of_lt h)]

theorem charListLe_trans {a b c : List Char} (hab : charListLe a b = true)
    (hbc : charListLe b c = true) : charListLe a c = true := by
  induction a generalizing b c with
  | nil => simp [charListLe]
  | cons x xs ih =>
    cases b with
    | nil => simp [charListLe] at hab
    | cons y ys =>
      cases c with
      | nil => simp [charListLe] at hbc
      | cons z zs =>
        simp only [charListLe] at hab hbc ⊢
        rcases Nat.lt_trichotomy x.toNat y.toNat with hxy | hxy | hxy
        · rcases Nat.lt_trichotomy y.toNat z.toNat with hyz | hyz | hyz
          · simp [Nat.lt_trans hxy hyz]
          · rw [← hyz]; simp [hxy]
          · rw [if_neg (by omega), if_pos hyz] at hbc
            exact absurd hbc (by simp)
        · simp only [hxy, Nat.lt_irrefl, if_false, if_neg] at hab
          rcases Nat.lt_trichotomy y.toNat z.toNat with hyz | hyz | hyz
          · simp [hxy ▸ hyz]
          · simp only [hyz, Nat.lt_irrefl, if_false, if_neg] at hbc
            rw [if_neg (by omega), if_neg (by omega)]
            exact ih (by simpa using hab) (by simpa using hbc)
          · rw [if_neg (by omega), if_pos hyz] at hbc
            exact absurd hbc (by simp)
        · rw [if_neg (by omega), if_pos hxy] at hab
          exact absurd hab (by simp)

/-- The comparator used by `fn_sort` (`src/query/builtins/mod.rs`, line 161):
`a.to_text().cmp(&b.to_text())` as a `≤` relation. -/
def textLe (x y : Value) : Prop :=
  charListLe x.to_text.data y.to_text.data = true

instance : DecidableRel textLe := fun x y => by
  unfold textLe; infer_instance

/-- `fn_sort` from `src/query/builtins/mod.rs`: on an `Array`, sort the
members by the string comparison of their `to_text` renderings; on any
other input, return the input unchanged.  Rust's `sort_by` is a stable
sort; it is modelled by the stable `List.insertionSort`, which produces the
same output as any stable sort for the total preorder `textLe`. -/
def fn_sort (args : List Value) : Except QueryError (List Value) :=
  match args.head?.getD .null with
  | .array a => .ok [.array (a.insertionSort textLe)]
  | v => .ok [v]

/-- `fn_any` from `src/query/builtins/mod.rs`.  NOTE: exactly as in the
source, the `condition` argument is ignored for `Array` inputs; each
element's own truthiness is tested instead. -/
def fn_any (args : List Value) : Except QueryError (List Value) :=
  let input := args.head?.getD .null
  let condition := (args[1]?).getD (.bool false)
  let result :=
    match input with
    | .array a => a.any Value.is_truthy
    | _ => condition.is_truthy
  .ok [.bool result]

/-- `fn_all` from `src/query/builtins/mod.rs`.  NOTE: exactly as in the
source, the `condition` argument is ignored; for `Array` inputs each
element's own truthiness is tested, otherwise the input's. -/
def fn_all (args : List Value) : Except QueryError (List Value) :=
  let input := args.head?.getD .null
  let result :=
    match input with
    | .array a => a.all Value.is_truthy
    | _ => input.is_truthy
  .ok [.bool result]

/-- `fn_matches` from `src/query/builtins/mod.rs`.  The external `regex`
crate is modelled by an abstract oracle: `compile` for `Regex::new`
(returning `none` on invalid patterns) and `isMatch` for `Regex::is_match`.
The function's control flow — `map`/`unwrap_or(false)` around the oracle —
is the code under verification. -/
def fn_matches {R : Type} (compile : String → Option R)
    (isMatch : R → String → Bool) (args : List Value) :
    Except QueryError (List Value) :=
  let input := args.head?.getD .null
  let pattern := ((args[1]?).map Value.to_text).getD ""
  let result := ((compile pattern).map (fun re => isMatch re input.to_text)).getD false
  .ok [.bool result]

/-! ### Slugify

Three `slugify` pipelines appear in the source.  `src/query/value.rs`
(used for a heading's `slug` property) maps whitespace, `-`, `.` and `_`
to `-`; `src/parser/content.rs` and the inline pipeline of `fn_slugify`
in `src/query/builtins/mod.rs` map only whitespace and `-`.  All three
lowercase first, keep alphanumerics, mark every other character with
`'\0'` and filter it out, then split on `-`, drop empty fragments and
rejoin with `-`. -/

/-- Rust `str::split('-')` on a character list: the (possibly empty)
fragments between `-` occurrences. -/
def splitDash : List Char → List (List Char)
  | [] => [[]]
  | c :: cs =>
      if c = '-' then [] :: splitDash cs
      else
        match splitDash cs with
        | [] => [[c]]
        | g :: gs => (c :: g) :: gs

/-- Rust `Vec<&str>::join("-")` on character-list fragments. -/
def dashJoin : List (List Char) → List Char
  | [] => []
  | [g] => g
  | g :: gs => g ++ '-' :: dashJoin gs

/-- `slugify` from `src/query/value.rs` (the heading `slug` property):
whitespace, `-`, `.` and `_` all become `-`.  `Char.toLower`,
`Char.isAlphanum` and `Char.isWhitespace` model the Rust character
classes on ASCII. -/
def valueSlugify (text : String) : String :=
  let mapped := (text.data.map Char.toLower).map fun c =>
    if c.isAlphanum then c
    else if c.isWhitespace || c = '-' || c = '.' || c = '_' then '-'
    else '\x00'
  let kept := mapped.filter fun c => c != '\x00'
  ⟨dashJoin ((splitDash kept).filter fun g => !g.isEmpty)⟩

/-- `slugify` from `src/parser/content.rs`: identical to the `value.rs`
variant except that only whitespace and `-` map to `-`. -/
def contentSlugify (text : String) : String :=
  let mapped := (text.data.map Char.toLower).map fun c =>
    if c.isAlphanum then c
    else if c.isWhitespace || c = '-' then '-'
    else '\x00'
  let kept := mapped.filter fun c => c != '\x00'
  ⟨dashJoin ((splitDash kept).filter fun g => !g.isEmpty)⟩

/-- `fn_slugify` from `src/query/builtins/mod.rs`: the same pipeline as
`contentSlugify`, applied to the input's `to_text`. -/
def fn_slugify (args : List Value) : Except QueryError (List Value) :=
  let input := args.head?.getD .null
  let text := input.to_text
  let mapped := (text.data.map Char.toLower).map fun c =>
    if c.isAlphanum then c
    else if c.isWhitespace || c = '-' then '-'
    else '\x00'
  let kept := mapped.filter fun c => c != '\x00'
  .ok [.string ⟨dashJoin ((splitDash kept).filter fun g => !g.isEmpty)⟩]

/-! ### Property access (`src/query/value.rs`) -/

/-- Strip one trailing carriage return, as Rust's `str::lines` does to each
line. -/
def stripCR (l : List Char) : List Char :=
  if l.getLast? = some '\r' then l.dropLast else l

/-- Rust `str::lines` on a character list: split on `'\n'`, treat the
newline as a terminator (no empty final line when the text ends with
`'\n'`, no lines at all for the empty text), and strip one trailing
`'\r'` from each line. -/
def rustLines (s : List Char) : List (List Char) :=
  let segs := s.splitOn '\n'
  let segs := if segs.getLast? = some [] then segs.dropLast else segs
  segs.map stripCR

/-- `HeadingValue::get_property`. -/
def HeadingValue.get_property (h : HeadingValue) (name : String) : Option Value :=
  if name = "level" then some (.number h.level)
  else if name = "text" then some (.string h.text)
  else if name = "offset" then some (.number h.offset)
  else if name = "line" then some (.number h.line)
  else if name = "content" then some (.string h.content)
  else if name = "md" ∨ name = "markdown" then some (.string h.raw_md)
  else if name = "slug" then some (.string (valueSlugify h.text))
  else none

/-- `CodeValue::get_property`.  Note the source's asymmetry: a missing
`language` yields `Some(Null)` rather than `None`. -/
def CodeValue.get_property (c : CodeValue) (name : String) : Option Value :=
  if name = "lang" ∨ name = "language" then
    some ((c.language.map Value.string).getD .null)
  else if name = "text" ∨ name = "content" then some (.string c.content)
  else if name = "start_line" then some (.number c.start_line)
  else if name = "end_line" then some (.number c.end_line)
  else if name = "lines" then some (.number (rustLines c.content.data).length)
  else none

/-- `LinkValue::get_property`. -/
def LinkValue.get_property (l : LinkValue) (name : String) : Option Value :=
  if name = "text" then some (.string l.text)
  else if name = "url" then some (.string l.url)
  else if name = "type" then some (.string l.link_type.as_str)
  else if name = "offset" then some (.number l.offset)
  else none

/-- `ImageValue::get_property`.  A missing `title` yields `Some(Null)`. -/
def ImageValue.get_property (i : ImageValue) (name : String) : Option Value :=
  if name = "alt" ∨ name = "text" then some (.string i.alt)
  else if name = "src" ∨ name = "url" then some (.string i.src)
  else if name = "title" then some ((i.title.map Value.string).getD .null)
  else none

/-- `TableValue::get_property`. -/
def TableValue.get_property (t : TableValue) (name : String) : Option Value :=
  if name = "headers" then some (.array (t.headers.map Value.string))
  else if name = "rows" then
    some (.array (t.rows.map fun row => .array (row.map Value.string)))
  else if name = "cols" ∨ name = "columns" then some (.number t.headers.length)
  else if name = "alignments" then some (.array (t.alignments.map Value.string))
  else none

/-- `ListValue::get_property`. -/
def ListValue.get_property (l : ListValue) (name : String) : Option Value :=
  if name = "ordered" then some (.bool l.ordered)
  else if name = "items" then
    some (.array (l.items.map fun i => Value.string i.content))
  else if name = "length" ∨ name = "count" then some (.number l.items.length)
  else none

/-- `DocumentValue::get_property`. -/
def DocumentValue.get_property (d : DocumentValue) (name : String) : Option Value :=
  if name = "content" ∨ name = "text" then some (.string d.content)
  else if name = "heading_count" ∨ name = "headings" then
    some (.number d.heading_count)
  else if name = "word_count" ∨ name = "words" then some (.number d.word_count)
  else none

/-- Lookup in an association list, modelling `IndexMap::get`. -/
def assocGet (o : List (String × Value)) (name : String) : Option Value :=
  match o with
  | [] => none
  | (k, v) :: ps => if k = name then some v else assocGet ps name

/-- `Value::get_property` from `src/query/value.rs`: dispatch on the value
kind; scalar kinds and `Blockquote`/`Paragraph` have no properties. -/
def Value.get_property (v : Value) (name : String) : Option Value :=
  match v with
  | .object obj => assocGet obj name
  | .heading h => h.get_property name
  | .code c => c.get_property name
  | .link l => l.get_property name
  | .image i => i.get_property name
  | .table t => t.get_property name
  | .list l => l.get_property name
  | .document d => d.get_property name
  | .frontMatter fm => assocGet fm name
  | _ => none

/-- Modelled from the spec: the evaluator (`src/query/eval.rs`, whose source
is not present under `src/`) maps `Expr::Property{name}` on a current value
to `[current.get_property(name)]`, yielding `[Null]` on an unknown name and
never an error (spec §4.7: "Property{name} → [current.get_property(name)] —
returns [Null] on unknown name (not error)"). -/
def evalProperty (v : Value) (name : String) : List Value :=
  [(v.get_property name).getD .null]

/-- Verification artifact: the property names handled by the `get_property`
match arms of each value kind in `src/query/value.rs` (for `Object` and
`FrontMatter`, the keys actually present). -/
def knownPropertyNames : Value → List String
  | .object o => o.map Prod.fst
  | .frontMatter fm => fm.map Prod.fst
  | .heading _ => ["level", "text", "offset", "line", "content", "md", "markdown", "slug"]
  | .code _ => ["lang", "language", "text", "content", "start_line", "end_line", "lines"]
  | .link _ => ["text", "url", "type", "offset"]
  | .image _ => ["alt", "text", "src", "url", "title"]
  | .table _ => ["headers", "rows", "cols", "columns", "alignments"]
  | .list _ => ["ordered", "items", "length", "count"]
  | .document _ => ["content", "text", "heading_count", "headings", "word_count", "words"]
  | _ => []

theorem assocGet_eq_none_of_not_mem {o : List (String × Value)} {n : String}
    (h : n ∉ o.map Prod.fst) : assocGet o n = none := by
  induction o with
  | nil => rfl
  | cons p ps ih =>
    simp only [List.map_cons, List.mem_cons] at h
    push_neg at h
    rw [assocGet, if_neg (fun e => h.1 e.symm)]
    exact ih h.2

/-- C8: property access never errors.  On any value `v` and name `n` that is
not a known property of `v`'s kind, the evaluator's property step yields
`[Null]`; known-but-absent fields — the language of a `Code` block without
one, the title of an `Image` without one — also yield `[Null]`.  (The
evaluator step is modelled from the spec, `src/query/eval.rs` being absent
from the source tree; the `get_property` dispatch is from
`src/query/value.rs`.) -/
theorem evalProperty_null_cases (v : Value) (n : String) :
    (n ∉ knownPropertyNames v → evalProperty v n = [.null]) ∧
    (∀ c : CodeValue, c.language = none → n = "lang" ∨ n = "language" →
      evalProperty (.code c) n = [.null]) ∧
    (∀ i : ImageValue, i.title = none → evalProperty (.image i) "title" = [.null]) := by
  refine ⟨?_, ?_, ?_⟩
  · intro h
    cases v with
    | object o =>
        simp only [knownPropertyNames] at h
        simp [evalProperty, Value.get_property, assocGet_eq_none_of_not_mem h]
    | frontMatter fm =>
        simp only [knownPropertyNames] at h
        simp [evalProperty, Value.get_property, assocGet_eq_none_of_not_mem h]
    | heading hh =>
        simp only [knownPropertyNames, List.mem_cons, List.not_mem_nil, or_false] at h
        push_neg at h
        obtain ⟨h1, h2, h3, h4, h5, h6, h7, h8⟩ := h
        simp [evalProperty, Value.get_property, HeadingValue.get_property,
          h1, h2, h3, h4, h5, h6, h7, h8]
    | code c =>
        simp only [knownPropertyNames, List.mem_cons, List.not_mem_nil, or_false] at h
        push_neg at h
        obtain ⟨h1, h2, h3, h4, h5, h6, h7⟩ := h
        simp [evalProperty, Value.get_property, CodeValue.get_property,
          h1, h2, h3, h4, h5, h6, h7]
    | link l =>
        simp only [knownPropertyNames, List.mem_cons, List.not_mem_nil, or_false] at h
        push_neg at h
        obtain ⟨h1, h2, h3, h4⟩ := h
        simp [evalProperty, Value.get_property, LinkValue.get_property, h1, h2, h3, h4]
    | image i =>
        simp only [knownPropertyNames, List.mem_cons, List.not_mem_nil, or_false] at h
        push_neg at h
        obtain ⟨h1, h2, h3, h4, h5⟩ := h
        simp [evalProperty, Value.get_property, ImageValue.get_property,
          h1, h2, h3, h4, h5]
    | table t =>
        simp only [knownPropertyNames, List.mem_cons, List.not_mem_nil, or_false] at h
        push_neg at h
        obtain ⟨h1, h2, h3, h4, h5⟩ := h
        simp [evalProperty, Value.get_property, TableValue.get_property,
          h1, h2, h3, h4, h5]
    | list l =>
        simp only [knownPropertyNames, List.mem_cons, List.not_mem_nil, or_false] at h
        push_neg at h
        obtain ⟨h1, h2, h3, h4⟩ := h
        simp [evalProperty, Value.get_property, ListValue.get_property, h1, h2, h3, h4]
    | document d =>
        simp only [knownPropertyNames, List.mem_cons, List.not_mem_nil, or_false] at h
        push_neg at h
        obtain ⟨h1, h2, h3, h4, h5, h6⟩ := h
        simp [evalProperty, Value.get_property, DocumentValue.get_property,
          h1, h2, h3, h4, h5, h6]
    | null => rfl
    | bool b => rfl
    | number m => rfl
    | string s => rfl
    | array a => rfl
    | blockquote b => rfl
    | paragraph p => rfl
  · intro c hlang hn
    rcases hn with rfl | rfl <;>
      simp [evalProperty, Value.get_property, CodeValue.get_property, hlang]
  · intro i htitle
    simp [evalProperty, Value.get_property, ImageValue.get_property, htitle]

/-- Witness for `evalProperty_null_cases` at concrete inputs: the unknown
name "foo" on a number, a code block without a language, an image without
a title. -/
theorem evalProperty_null_cases_witness :
    evalProperty (.number 5) "foo" = [.null] ∧
    evalProperty (.code ⟨none, "x", 1, 2⟩) "lang" = [.null] ∧
    evalProperty (.image ⟨"a", "s", none⟩) "title" = [.null] :=
  ⟨(evalProperty_null_cases (.number 5) "foo").1 (by simp [knownPropertyNames]),
   (evalProperty_null_cases (.code ⟨none, "x", 1, 2⟩) "lang").2.1 _ rfl (Or.inl rfl),
   (evalProperty_null_cases (.image ⟨"a", "s", none⟩) "title").2.2 _ rfl⟩

/-- C9: on an `Array` input, `fn_sort` returns a single `Array` that is a
permutation of the input, ordered by the lexicographic string comparison of
the elements' `to_text` renderings (`textLe`) — so numbers sort as strings;
on any non-`Array` input it returns the input unchanged. -/
theorem fn_sort_spec (args : List Value) :
    (∀ a, args.head?.getD .null = .array a →
      ∃ b, fn_sort args = .ok [.array b] ∧ b.Perm a ∧ b.Pairwise textLe) ∧
    ((∀ a, args.head?.getD .null ≠ .array a) →
      fn_sort args = .ok [args.head?.getD .null]) := by
  constructor
  · intro a ha
    refine ⟨a.insertionSort textLe, ?_, ?_, ?_⟩
    · unfold fn_sort
      rw [ha]
    · exact List.perm_insertionSort textLe a
    · haveI : IsTotal Value textLe :=
        ⟨fun x y => by
          have h := charListLe_total x.to_text.data y.to_text.data
          rcases Bool.or_eq_true_iff.mp h with h' | h'
          · exact Or.inl h'
          · exact Or.inr h'⟩
      haveI : IsTrans Value textLe := ⟨fun x y z hxy hyz => charListLe_trans hxy hyz⟩
      exact List.sorted_insertionSort textLe a
  · intro hne
    unfold fn_sort
    cases hv : args.head?.getD Value.null with
    | array a => exact absurd hv (hne a)
    | null => rfl
    | bool b => rfl
    | number m => rfl
    | string s => rfl
    | object o => rfl
    | heading h => rfl
    | code c => rfl
    | link l => rfl
    | image i => rfl
    | table t => rfl
    | list l => rfl
    | blockquote b => rfl
    | paragraph p => rfl
    | document d => rfl
    | frontMatter fm => rfl

/-- Witness for `fn_sort_spec`: sorting `[2, 10]` — the output is a sorted
permutation, and concretely it is `[10, 2]`, because `"10"` precedes `"2"`
in string order. -/
theorem fn_sort_spec_witness :
    (∃ b, fn_sort [.array [.number 2, .number 10]] = .ok [.array b] ∧
      b.Perm [.number 2, .number 10] ∧ b.Pairwise textLe) ∧
    fn_sort [.array [.number 2, .number 10]] =
      .ok [.array [.number 10, .number 2]] :=
  ⟨(fn_sort_spec [.array [.number 2, .number 10]]).1 _ rfl, by rfl⟩

/-- C10: `fn_matches` never fails — it always returns `Ok([Bool(_)])` — and
whenever the pattern does not compile (`Regex::new` returns an error,
modelled by the `compile` oracle returning `none`), the result is
`Ok([Bool(false)])`, not an `InvalidRegex` error.  Universally quantified
over the regex oracle, so this holds whatever the regex engine does. -/
theorem fn_matches_never_errors {R : Type} (compile : String → Option R)
    (isMatch : R → String → Bool) (args : List Value) :
    (∃ b, fn_matches compile isMatch args = .ok [.bool b]) ∧
    (compile (((args[1]?).map Value.to_text).getD "") = none →
      fn_matches compile isMatch args = .ok [.bool false]) := by
  constructor
  · exact ⟨_, rfl⟩
  · intro h
    simp [fn_matches, h]

/-- Witness for `fn_matches_never_errors`: an oracle that rejects every
pattern (as `Regex::new` does on `"("`) still yields `Ok([Bool(false)])`. -/
theorem fn_matches_never_errors_witness :
    fn_matches (R := Unit) (fun _ => none) (fun _ _ => true)
      [.string "x", .string "("] = .ok [.bool false] :=
  (fn_matches_never_errors (R := Unit) (fun _ => none) (fun _ _ => true)
    [.string "x", .string "("]).2 rfl

/-- C2 (code bug exhibit): `fn_any` and `fn_all` ignore their condition
argument on `Array` inputs and test each element's own truthiness instead.
On the array `[0]` with the (truthy) condition value `true` — as produced
by the queries `any(true)` / `all(true)` — both return `Bool(false)`,
whereas applying the condition to each element yields a truthy result for
every element, so the specified semantics requires `Bool(true)`. -/
theorem fn_any_fn_all_ignore_condition :
    fn_any [.array [.number 0], .bool true] = .ok [.bool false] ∧
    fn_all [.array [.number 0], .bool true] = .ok [.bool false] ∧
    (Value.bool true).is_truthy = true :=
  ⟨rfl, rfl, rfl⟩

/-! ### Claim-side slugify (C3)

The claim describes `slugify` as: lowercase, keep alphanumerics, map
whitespace and `-` to `-`, drop every other character, collapse runs of
`-` into one, and produce no leading or trailing `-`.  `specSlugify`
renders those words directly (the code's split/filter/join pipeline is a
different algorithm, proved equivalent below); `specSlugifyDots` is the
amended description with `.` and `_` also mapping to `-`. -/

/-- Collapse each run of consecutive `-` into a single `-`. -/
def squeezeDashes : List Char → List Char
  | [] => []
  | [c] => [c]
  | c :: c' :: cs =>
      if c = '-' ∧ c' = '-' then squeezeDashes (c' :: cs)
      else c :: squeezeDashes (c' :: cs)

/-- Remove trailing `-` characters. -/
def trimEnd (l : List Char) : List Char :=
  (l.reverse.dropWhile (· == '-')).reverse

/-- Remove leading and trailing `-` characters. -/
def trimDashes (l : List Char) : List Char :=
  trimEnd (l.dropWhile (· == '-'))

/-- The claim's description of `slugify`, word for word: lowercase, keep
alphanumerics, map whitespace and `-` to `-`, drop everything else,
collapse `-` runs, trim `-` from both ends. -/
def specSlugify (s : String) : String :=
  ⟨trimDashes (squeezeDashes ((s.data.map Char.toLower).filterMap fun c =>
    if c.isAlphanum then some c
    else if c.isWhitespace || c = '-' then some '-'
    else none))⟩

/-- The amended description matching the `value.rs` variant: `.` and `_`
also map to `-`. -/
def specSlugifyDots (s : String) : String :=
  ⟨trimDashes (squeezeDashes ((s.data.map Char.toLower).filterMap fun c =>
    if c.isAlphanum then some c
    else if c.isWhitespace || c = '-' || c = '.' || c = '_' then some '-'
    else none))⟩

/-- The maximal `-`-free nonempty fragments of a character list, used as
the midpoint between the code's split/filter/join pipeline and the
claim's collapse/trim description. -/
def dashGroups : List Char → List (List Char)
  | [] => []
  | c :: cs =>
      if c = '-' then dashGroups cs
      else (c :: cs.takeWhile (· != '-')) :: dashGroups (cs.dropWhile (· != '-'))
termination_by l => l.length
decreasing_by
  all_goals
    have h : (List.dropWhile (fun x => x != '-') cs).length ≤ cs.length :=
      (List.dropWhile_sublist _).length_le
    simp only [List.length_cons]
    omega

theorem splitDash_ne_nil (l : List Char) : splitDash l ≠ [] := by
  cases l with
  | nil => simp [splitDash]
  | cons c cs =>
    by_cases h : c = '-'
    · simp [splitDash, h]
    · simp only [splitDash, if_neg h]
      cases splitDash cs <;> simp

theorem dashJoin_cons_cons (c : Char) (g : List Char) (gs : List (List Char)) :
    dashJoin ((c :: g) :: gs) = c :: dashJoin (g :: gs) := by
  cases gs <;> simp [dashJoin]

theorem squeezeDashes_cons_of_ne {c : Char} (cs : List Char) (hc : c ≠ '-') :
    squeezeDashes (c :: cs) = c :: squeezeDashes cs := by
  cases cs with
  | nil => rfl
  | cons c' cs' => simp [squeezeDashes, hc]

theorem squeezeDashes_dash_cons (cs : List Char) :
    squeezeDashes ('-' :: cs) =
      '-' :: squeezeDashes (cs.dropWhile (· == '-')) := by
  induction cs with
  | nil => rfl
  | cons c' cs' ih =>
    by_cases h : c' = '-'
    · subst h
      have h2 : squeezeDashes ('-' :: '-' :: cs') = squeezeDashes ('-' :: cs') := by
        simp [squeezeDashes]
      rw [h2, ih]
      simp [List.dropWhile_cons]
    · rw [show squeezeDashes ('-' :: c' :: cs') = '-' :: squeezeDashes (c' :: cs') by
        simp [squeezeDashes, h]]
      simp [List.dropWhile_cons, h]

theorem trimEnd_cons_of_ne {c : Char} (x : List Char) (hc : c ≠ '-') :
    trimEnd (c :: x) = c :: trimEnd x := by
  unfold trimEnd
  rw [List.reverse_cons, List.dropWhile_append]
  by_cases h : (x.reverse.dropWhile (· == '-')).isEmpty
  · rw [if_pos h]
    rw [List.isEmpty_iff] at h
    simp [List.dropWhile_cons, hc, h]
  · rw [if_neg h]
    simp

theorem trimEnd_dash_cons (x : List Char) :
    trimEnd ('-' :: x) = if trimEnd x = [] then [] else '-' :: trimEnd x := by
  unfold trimEnd
  rw [List.reverse_cons, List.dropWhile_append]
  by_cases h : (x.reverse.dropWhile (· == '-')).isEmpty
  · rw [if_pos h]
    rw [List.isEmpty_iff] at h
    simp [List.dropWhile_cons, h]
  · rw [if_neg h]
    rw [List.isEmpty_iff] at h
    simp [h]

theorem dashGroups_dash_cons (cs : List Char) :
    dashGroups ('-' :: cs) = dashGroups cs := by
  simp [dashGroups]

theorem dashGroups_cons_of_ne {c : Char} (cs : List Char) (hc : c ≠ '-') :
    dashGroups (c :: cs) =
      (c :: cs.takeWhile (· != '-')) :: dashGroups (cs.dropWhile (· != '-')) := by
  rw [dashGroups]
  simp [hc]

theorem dashGroups_dropWhile_dash (cs : List Char) :
    dashGroups (cs.dropWhile (· == '-')) = dashGroups cs := by
  induction cs with
  | nil => rfl
  | cons c' t ih =>
    by_cases h : c' = '-'
    · subst h
      rw [List.dropWhile_cons_of_pos (by simp), ih, dashGroups_dash_cons]
    · simp [List.dropWhile_cons, h]

/-- The part of `splitDash` after the first fragment (proof artifact). -/
def splitDashRest (cs : List Char) : List (List Char) :=
  match cs.dropWhile (· != '-') with
  | [] => []
  | _ :: rest => splitDash rest

theorem dropWhile_head_false {p : Char → Bool} {l : List Char} {b : Char}
    {bs : List Char} (h : l.dropWhile p = b :: bs) : p b = false := by
  induction l with
  | nil => simp [List.dropWhile] at h
  | cons a t ih =>
    rw [List.dropWhile_cons] at h
    by_cases ha : p a = true
    · rw [if_pos ha] at h
      exact ih h
    · rw [if_neg ha] at h
      cases h
      exact Bool.not_eq_true _ ▸ ha

theorem splitDash_decomp (cs : List Char) :
    splitDash cs = cs.takeWhile (· != '-') :: splitDashRest cs := by
  induction cs with
  | nil => rfl
  | cons c cs2 ih =>
    by_cases hc : c = '-'
    · subst hc
      rw [show splitDash ('-' :: cs2) = [] :: splitDash cs2 by simp [splitDash]]
      rw [show List.takeWhile (· != '-') ('-' :: cs2) = [] by simp [List.takeWhile_cons]]
      rw [show splitDashRest ('-' :: cs2) = splitDash cs2 by
        simp [splitDashRest, List.dropWhile_cons]]
    · rw [show splitDash (c :: cs2) =
          (match splitDash cs2 with
           | [] => [[c]]
           | g :: gs => (c :: g) :: gs) by simp [splitDash, hc]]
      rw [ih]
      rw [List.takeWhile_cons_of_pos (by simp [hc])]
      rw [show splitDashRest (c :: cs2) = splitDashRest cs2 by
        simp [splitDashRest, List.dropWhile_cons, hc]]

theorem splitDash_filter_eq_dashGroups (l : List Char) :
    (splitDash l).filter (fun g => !g.isEmpty) = dashGroups l := by
  have main : ∀ n, ∀ l : List Char, l.length ≤ n →
      (splitDash l).filter (fun g => !g.isEmpty) = dashGroups l := by
    intro n
    induction n with
    | zero =>
        intro l hl
        have hnil : l = [] := List.length_eq_zero.mp (Nat.le_zero.mp hl)
        subst hnil
        simp [splitDash, dashGroups, trimDashes, trimEnd, squeezeDashes, dashJoin]
    | succ n ih =>
        intro l hl
        cases l with
        | nil => simp [splitDash, dashGroups, trimDashes, trimEnd, squeezeDashes, dashJoin]
        | cons c cs =>
          simp only [List.length_cons, Nat.succ_le_succ_iff] at hl
          by_cases hc : c = '-'
          · subst hc
            rw [show splitDash ('-' :: cs) = [] :: splitDash cs by simp [splitDash]]
            rw [dashGroups_dash_cons, List.filter_cons]
            rw [if_neg (by simp)]
            exact ih cs hl
          · rw [splitDash_decomp (c :: cs), List.filter_cons]
            rw [List.takeWhile_cons_of_pos (by simp [hc])]
            rw [if_pos (by simp)]
            rw [dashGroups_cons_of_ne cs hc]
            refine congrArg _ ?_
            rw [show splitDashRest (c :: cs) = splitDashRest cs by
              simp [splitDashRest, List.dropWhile_cons, hc]]
            unfold splitDashRest
            cases hdw : cs.dropWhile (· != '-') with
            | nil => simp [dashGroups]
            | cons d rest =>
              have hd := dropWhile_head_false hdw
              have hd' : d = '-' := by simpa using hd
              subst hd'
              rw [dashGroups_dash_cons]
              have hlen : rest.length ≤ n := by
                have h1 : (cs.dropWhile (· != '-')).length ≤ cs.length :=
                  (List.dropWhile_sublist _).length_le
                rw [hdw] at h1
                simp only [List.length_cons] at h1
                omega
              exact ih rest hlen
  exact main l.length l (Nat.le_refl _)

theorem trimEnd_squeezeDashes_eq (l : List Char) :
    trimEnd (squeezeDashes l) =
      dashJoin (l.takeWhile (· != '-') :: dashGroups (l.dropWhile (· != '-'))) := by
  have main : ∀ n, ∀ l : List Char, l.length ≤ n →
      trimEnd (squeezeDashes l) =
        dashJoin (l.takeWhile (· != '-') :: dashGroups (l.dropWhile (· != '-'))) := by
    intro n
    induction n with
    | zero =>
        intro l hl
        have hnil : l = [] := List.length_eq_zero.mp (Nat.le_zero.mp hl)
        subst hnil
        simp [splitDash, dashGroups, trimDashes, trimEnd, squeezeDashes, dashJoin]
    | succ n ih =>
        intro l hl
        cases l with
        | nil => simp [splitDash, dashGroups, trimDashes, trimEnd, squeezeDashes, dashJoin]
        | cons c cs =>
          simp only [List.length_cons, Nat.succ_le_succ_iff] at hl
          by_cases hc : c = '-'
          · subst hc
            rw [List.takeWhile_cons_of_neg (by simp)]
            rw [List.dropWhile_cons_of_neg (by simp)]
            rw [squeezeDashes_dash_cons, trimEnd_dash_cons, dashGroups_dash_cons]
            have hlen : (cs.dropWhile (· == '-')).length ≤ n :=
              Nat.le_trans (List.dropWhile_sublist _).length_le hl
            have ih2 := ih (cs.dropWhile (· == '-')) hlen
            cases hdw : cs.dropWhile (· == '-') with
            | nil =>
              have hz : dashGroups cs = [] := by
                rw [← dashGroups_dropWhile_dash cs, hdw]
                simp [dashGroups]
              rw [hz]
              simp [squeezeDashes, trimEnd, dashJoin]
            | cons e t =>
              have he := dropWhile_head_false hdw
              have he' : e ≠ '-' := by simpa using he
              rw [hdw] at ih2
              rw [List.takeWhile_cons_of_pos (by simp [he']),
                List.dropWhile_cons_of_pos (by simp [he']),
                dashJoin_cons_cons] at ih2
              have hgr : dashGroups cs = (e :: t.takeWhile (· != '-')) ::
                  dashGroups (t.dropWhile (· != '-')) := by
                rw [← dashGroups_dropWhile_dash cs, hdw, dashGroups_cons_of_ne t he']
              rw [hgr, ih2]
              rw [if_neg (by simp)]
              rw [show dashJoin ([] :: (e :: List.takeWhile (· != '-') t) ::
                    dashGroups (List.dropWhile (· != '-') t)) =
                  '-' :: dashJoin ((e :: List.takeWhile (· != '-') t) ::
                    dashGroups (List.dropWhile (· != '-') t)) by simp [dashJoin]]
              rw [dashJoin_cons_cons]
          · rw [List.takeWhile_cons_of_pos (by simp [hc])]
            rw [List.dropWhile_cons_of_pos (by simp [hc])]
            rw [squeezeDashes_cons_of_ne cs hc, trimEnd_cons_of_ne _ hc,
              dashJoin_cons_cons]
            exact congrArg _ (ih cs hl)
  exact main l.length l (Nat.le_refl _)

theorem trimDashes_squeezeDashes_eq (l : List Char) :
    trimDashes (squeezeDashes l) = dashJoin (dashGroups l) := by
  have main : ∀ n, ∀ l : List Char, l.length ≤ n →
      trimDashes (squeezeDashes l) = dashJoin (dashGroups l) := by
    intro n
    induction n with
    | zero =>
        intro l hl
        have hnil : l = [] := List.length_eq_zero.mp (Nat.le_zero.mp hl)
        subst hnil
        simp [splitDash, dashGroups, trimDashes, trimEnd, squeezeDashes, dashJoin]
    | succ n ih =>
        intro l hl
        cases l with
        | nil => simp [splitDash, dashGroups, trimDashes, trimEnd, squeezeDashes, dashJoin]
        | cons c cs =>
          simp only [List.length_cons, Nat.succ_le_succ_iff] at hl
          by_cases hc : c = '-'
          · subst hc
            rw [squeezeDashes_dash_cons, dashGroups_dash_cons]
            unfold trimDashes
            rw [List.dropWhile_cons_of_pos (by simp)]
            have hlen : (cs.dropWhile (· == '-')).length ≤ n :=
              Nat.le_trans (List.dropWhile_sublist _).length_le hl
            have ih2 := ih (cs.dropWhile (· == '-')) hlen
            unfold trimDashes at ih2
            rw [ih2, dashGroups_dropWhile_dash]
          · rw [squeezeDashes_cons_of_ne cs hc, dashGroups_cons_of_ne cs hc]
            unfold trimDashes
            rw [List.dropWhile_cons_of_neg (by simp [hc])]
            rw [trimEnd_cons_of_ne _ hc, dashJoin_cons_cons]
            exact congrArg _ (trimEnd_squeezeDashes_eq cs)
  exact main l.length l (Nat.le_refl _)

/-- Core equivalence: the code's split-on-`-`/drop-empty/join-with-`-`
pipeline equals the claim's collapse-runs-and-trim description, for every
character list. -/
theorem slug_pipeline_eq (l : List Char) :
    dashJoin ((splitDash l).filter (fun g => !g.isEmpty)) =
      trimDashes (squeezeDashes l) := by
  rw [splitDash_filter_eq_dashGroups, trimDashes_squeezeDashes_eq]

theorem map_filter_eq_filterMap (f : Char → Char) (g : Char → Option Char)
    (hg : ∀ c, g c = if f c = '\x00' then none else some (f c)) (l : List Char) :
    (l.map f).filter (fun c => c != '\x00') = l.filterMap g := by
  induction l with
  | nil => rfl
  | cons c t ih =>
    rw [List.map_cons, List.filter_cons, List.filterMap_cons, hg c]
    by_cases h : f c = '\x00'
    · rw [if_pos h, if_neg (by simp [h]), ih]
    · rw [if_neg h, if_pos (by simp [h]), ih]

theorem spec_pointwise_content (c : Char) :
    (if c.isAlphanum then some c
     else if c.isWhitespace || c = '-' then some '-'
     else none) =
      (if (if c.isAlphanum then c
           else if c.isWhitespace || c = '-' then '-'
           else '\x00') = '\x00' then none
       else some (if c.isAlphanum then c
                  else if c.isWhitespace || c = '-' then '-'
                  else '\x00')) := by
  have hdash : ¬ ('-' : Char) = '\x00' := by decide
  by_cases h1 : c.isAlphanum
  · have hc : ¬ c = '\x00' := by
      intro e
      subst e
      exact absurd h1 (by decide)
    simp [h1, hc]
  · by_cases h2 : (c.isWhitespace || c = '-' : Bool)
    · simp [h1, h2, hdash]
    · simp [h1, h2]

theorem spec_pointwise_dots (c : Char) :
    (if c.isAlphanum then some c
     else if c.isWhitespace || c = '-' || c = '.' || c = '_' then some '-'
     else none) =
      (if (if c.isAlphanum then c
           else if c.isWhitespace || c = '-' || c = '.' || c = '_' then '-'
           else '\x00') = '\x00' then none
       else some (if c.isAlphanum then c
                  else if c.isWhitespace || c = '-' || c = '.' || c = '_' then '-'
                  else '\x00')) := by
  have hdash : ¬ ('-' : Char) = '\x00' := by decide
  by_cases h1 : c.isAlphanum
  · have hc : ¬ c = '\x00' := by
      intro e
      subst e
      exact absurd h1 (by decide)
    simp [h1, hc]
  · by_cases h2 : (c.isWhitespace || c = '-' || c = '.' || c = '_' : Bool)
    · simp [h1, h2, hdash]
    · simp [h1, h2]

theorem contentSlugify_eq_spec (t : String) : contentSlugify t = specSlugify t := by
  unfold contentSlugify specSlugify
  refine congrArg String.mk ?_
  rw [map_filter_eq_filterMap _ _ spec_pointwise_content (t.data.map Char.toLower),
    slug_pipeline_eq]

theorem valueSlugify_eq_specDots (t : String) : valueSlugify t = specSlugifyDots t := by
  unfold valueSlugify specSlugifyDots
  refine congrArg String.mk ?_
  rw [map_filter_eq_filterMap _ _ spec_pointwise_dots (t.data.map Char.toLower),
    slug_pipeline_eq]

/-- C3 counterexample: the claim's slugify description drops `'.'`
("dropping every other character"), but the heading `slug` property's
slugify (`src/query/value.rs`) maps `'.'` to `'-'`: at `"a.b"` the code
produces `"a-b"` while the claimed description produces `"ab"`.  (The
source's own test asserts `slugify("API v2.0") == "api-v2-0"`.) -/
theorem slugify_claim_counterexample :
    valueSlugify "a.b" = "a-b" ∧ specSlugify "a.b" = "ab" ∧
      valueSlugify "a.b" ≠ specSlugify "a.b" :=
  ⟨rfl, rfl, by decide⟩

/-- C3 (amended): for every string `s`, the standalone `slugify` builtin and
the `content.rs` slugify equal the claim's description (lowercase, keep
alphanumerics, whitespace and `-` to `-`, drop the rest, collapse `-` runs,
no leading/trailing `-`); the value used for a heading's `slug` property
equals the description amended so that `'.'` and `'_'` also map to `-`. -/
theorem slugify_amended (s : String) (h : HeadingValue) :
    fn_slugify [.string s] = .ok [.string (specSlugify s)] ∧
    contentSlugify s = specSlugify s ∧
    valueSlugify s = specSlugifyDots s ∧
    h.get_property "slug" = some (.string (specSlugifyDots h.text)) := by
  refine ⟨?_, contentSlugify_eq_spec s, valueSlugify_eq_specDots s, ?_⟩
  · have hfn : fn_slugify [.string s] = .ok [.string (contentSlugify s)] := rfl
    rw [hfn, contentSlugify_eq_spec]
  · have hslug : h.get_property "slug" = some (.string (valueSlugify h.text)) := rfl
    rw [hslug, valueSlugify_eq_specDots]

/-! ### Levenshtein distance (`src/query/registry.rs`)

The Rust `levenshtein` fills a `(a_len+1) × (b_len+1)` matrix with
`matrix[i][j] = min(matrix[i-1][j] + 1, matrix[i][j-1] + 1,
matrix[i-1][j-1] + cost(a[i-1], b[j-1]))` over the character prefixes of
`a` and `b`, with border rows `matrix[i][0] = i`, `matrix[0][j] = j`.
That recurrence peels the *last* character of each prefix; it is embedded
as `frontLev`, the same recurrence peeling the *first* character, applied
to the reversed character lists: `frontLev a.reverse b.reverse` satisfies
exactly the matrix recurrence in the prefix lengths. -/

/-- Edit-distance recurrence consuming characters from the front. -/
def frontLev : List Char → List Char → Nat
  | [], ys => ys.length
  | xs, [] => xs.length
  | x :: xs, y :: ys =>
      min (frontLev xs (y :: ys) + 1)
        (min (frontLev (x :: xs) ys + 1)
          (frontLev xs ys + (if x = y then 0 else 1)))
termination_by xs ys => (xs.length, ys.length)

/-- Inner column loop of the Rust `levenshtein` matrix fill: walking the
remaining characters `ys` of `b` in lockstep with the rest of the previous
row, carrying `diag = matrix[i-1][j-1]` and `left = matrix[i][j-1]`; each
step computes `matrix[i][j] = min(up + 1, left + 1, diag + cost)`. -/
def levRow (x : Char) : List Char → List Nat → Nat → Nat → List Nat
  | [], _, _, _ => []
  | _ :: _, [], _, _ => []
  | y :: ys, up :: prevRest, diag, left =>
      let cur := min (up + 1) (min (left + 1) (diag + (if x = y then 0 else 1)))
      cur :: levRow x ys prevRest up cur

/-- One outer-loop step of the Rust `levenshtein`: from row `i-1` of the
matrix to row `i`, whose first entry is `matrix[i][0] = i`. -/
def levStep (b : List Char) (row : List Nat) (x : Char) : List Nat :=
  match row with
  | [] => []
  | up0 :: rest => (up0 + 1) :: levRow x b rest up0 (up0 + 1)

/-- `levenshtein` from `src/query/registry.rs`: the dynamic program over
the `(a_len+1) × (b_len+1)` matrix, realized row by row (`List.range`
is the border row `matrix[0][j] = j`); the result is `matrix[a_len][b_len]`,
the last entry of the final row.  `levenshtein_eq_prefLev` below proves it
equal to the recurrence `frontLev` on the reversed lists. -/
def levenshtein (a b : List Char) : Nat :=
  ((a.foldl (levStep b) (List.range (b.length + 1))).getLast?).getD 0

/-- Distance between prefixes read as such: `frontLev` on the reversals. -/
def prefLev (u v : List Char) : Nat :=
  frontLev u.reverse v.reverse

theorem frontLev_nil_left (ys : List Char) : frontLev [] ys = ys.length := by
  simp [frontLev]

theorem frontLev_nil_right (xs : List Char) : frontLev xs [] = xs.length := by
  cases xs <;> simp [frontLev]

theorem frontLev_self (xs : List Char) : frontLev xs xs = 0 := by
  induction xs with
  | nil => simp [frontLev]
  | cons x t ih =>
    rw [show frontLev (x :: t) (x :: t) =
        min (frontLev t (x :: t) + 1)
          (min (frontLev (x :: t) t + 1)
            (frontLev t t + (if x = x then 0 else 1))) by simp [frontLev]]
    rw [if_pos rfl, ih]
    omega

theorem frontLev_comm (xs ys : List Char) : frontLev xs ys = frontLev ys xs := by
  have main : ∀ n, ∀ xs ys : List Char, xs.length + ys.length ≤ n →
      frontLev xs ys = frontLev ys xs := by
    intro n
    induction n with
    | zero =>
        intro xs ys h
        have hx : xs = [] := by
          cases xs
          · rfl
          · simp at h
        have hy : ys = [] := by
          cases ys
          · rfl
          · simp at h
        subst hx
        subst hy
        rfl
    | succ n ih =>
        intro xs ys h
        cases xs with
        | nil => cases ys <;> simp [frontLev]
        | cons x t =>
          cases ys with
          | nil => simp [frontLev]
          | cons y u =>
            simp only [List.length_cons] at h
            rw [show frontLev (x :: t) (y :: u) =
                min (frontLev t (y :: u) + 1)
                  (min (frontLev (x :: t) u + 1)
                    (frontLev t u + (if x = y then 0 else 1))) by simp [frontLev]]
            rw [show frontLev (y :: u) (x :: t) =
                min (frontLev u (x :: t) + 1)
                  (min (frontLev (y :: u) t + 1)
                    (frontLev u t + (if y = x then 0 else 1))) by simp [frontLev]]
            rw [ih t (y :: u) (by simp only [List.length_cons]; omega),
              ih (x :: t) u (by simp only [List.length_cons]; omega),
              ih t u (by omega)]
            rw [show (if x = y then 0 else 1) = (if y = x then 0 else 1) by
              by_cases hxy : x = y
              · simp [hxy]
              · have hyx : ¬ y = x := fun e => hxy (Eq.symm e)
                simp [hxy, hyx]]
            omega
  exact main (xs.length + ys.length) xs ys (Nat.le_refl _)

/-- Edit scripts: `EditRel n xs ys` holds when `xs` rewrites to `ys` by an
alignment of keeps (cost 0) and substitutions/insertions/deletions (cost 1)
totalling exactly `n`. -/
inductive EditRel : Nat → List Char → List Char → Prop where
  | nil : EditRel 0 [] []
  | keep (x : Char) {n : Nat} {xs ys : List Char} :
      EditRel n xs ys → EditRel n (x :: xs) (x :: ys)
  | subst (x y : Char) {n : Nat} {xs ys : List Char} :
      EditRel n xs ys → EditRel (n + 1) (x :: xs) (y :: ys)
  | insert (y : Char) {n : Nat} {xs ys : List Char} :
      EditRel n xs ys → EditRel (n + 1) xs (y :: ys)
  | delete (x : Char) {n : Nat} {xs ys : List Char} :
      EditRel n xs ys → EditRel (n + 1) (x :: xs) ys

theorem frontLev_le_of_editRel {n : Nat} {xs ys : List Char}
    (h : EditRel n xs ys) : frontLev xs ys ≤ n := by
  induction h with
  | nil => simp [frontLev]
  | keep x h ih =>
      rename_i m as bs
      rw [show frontLev (x :: as) (x :: bs) =
          min (frontLev as (x :: bs) + 1)
            (min (frontLev (x :: as) bs + 1)
              (frontLev as bs + (if x = x then 0 else 1))) by simp [frontLev]]
      rw [if_pos rfl]
      omega
  | subst x y h ih =>
      rename_i m as bs
      rw [show frontLev (x :: as) (y :: bs) =
          min (frontLev as (y :: bs) + 1)
            (min (frontLev (x :: as) bs + 1)
              (frontLev as bs + (if x = y then 0 else 1))) by simp [frontLev]]
      have hc : (if x = y then 0 else 1) ≤ 1 := by
        split <;> omega
      omega
  | insert y h ih =>
      rename_i m as bs
      cases as with
      | nil =>
          rw [frontLev_nil_left] at ih ⊢
          simp only [List.length_cons]
          omega
      | cons a t =>
          rw [show frontLev (a :: t) (y :: bs) =
              min (frontLev t (y :: bs) + 1)
                (min (frontLev (a :: t) bs + 1)
                  (frontLev t bs + (if a = y then 0 else 1))) by simp [frontLev]]
          omega
  | delete x h ih =>
      rename_i m as bs
      cases bs with
      | nil =>
          rw [frontLev_nil_right] at ih ⊢
          simp only [List.length_cons]
          omega
      | cons b u =>
          rw [show frontLev (x :: as) (b :: u) =
              min (frontLev as (b :: u) + 1)
                (min (frontLev (x :: as) u + 1)
                  (frontLev as u + (if x = b then 0 else 1))) by simp [frontLev]]
          omega

theorem editRel_nil_left (ys : List Char) : EditRel ys.length [] ys := by
  induction ys with
  | nil => exact .nil
  | cons y u ih => exact .insert y ih

theorem editRel_nil_right (xs : List Char) : EditRel xs.length xs [] := by
  induction xs with
  | nil => exact .nil
  | cons x t ih => exact .delete x ih

theorem editRel_frontLev (xs ys : List Char) : EditRel (frontLev xs ys) xs ys := by
  have main : ∀ n, ∀ xs ys : List Char, xs.length + ys.length ≤ n →
      EditRel (frontLev xs ys) xs ys := by
    intro n
    induction n with
    | zero =>
        intro xs ys h
        have hx : xs = [] := by
          cases xs
          · rfl
          · simp at h
        have hy : ys = [] := by
          cases ys
          · rfl
          · simp at h
        subst hx
        subst hy
        rw [frontLev_nil_left]
        exact .nil
    | succ n ih =>
        intro xs ys h
        cases xs with
        | nil =>
            rw [frontLev_nil_left]
            exact editRel_nil_left ys
        | cons x t =>
          cases ys with
          | nil =>
              rw [frontLev_nil_right]
              exact editRel_nil_right (x :: t)
          | cons y u =>
            simp only [List.length_cons] at h
            have hA := ih t (y :: u) (by simp only [List.length_cons]; omega)
            have hB := ih (x :: t) u (by simp only [List.length_cons]; omega)
            have hC := ih t u (by omega)
            rw [show frontLev (x :: t) (y :: u) =
                min (frontLev t (y :: u) + 1)
                  (min (frontLev (x :: t) u + 1)
                    (frontLev t u + (if x = y then 0 else 1))) by simp [frontLev]]
            rcases Nat.le_total (frontLev t (y :: u) + 1)
                (min (frontLev (x :: t) u + 1)
                  (frontLev t u + (if x = y then 0 else 1))) with h1 | h1
            · rw [Nat.min_eq_left h1]
              exact .delete x hA
            · rw [Nat.min_eq_right h1]
              rcases Nat.le_total (frontLev (x :: t) u + 1)
                  (frontLev t u + (if x = y then 0 else 1)) with h2 | h2
              · rw [Nat.min_eq_left h2]
                exact .insert y hB
              · rw [Nat.min_eq_right h2]
                by_cases hxy : x = y
                · subst hxy
                  rw [if_pos rfl]
                  exact .keep x hC
                · rw [if_neg hxy]
                  exact .subst x y hC
  exact main (xs.length + ys.length) xs ys (Nat.le_refl _)

theorem editRel_comp {m n : Nat} {a b c : List Char}
    (h1 : EditRel m a b) (h2 : EditRel n b c) :
    ∃ k, k ≤ m + n ∧ EditRel k a c := by
  have main : ∀ N, ∀ (m n : Nat) (a b c : List Char),
      a.length + b.length + c.length ≤ N →
      EditRel m a b → EditRel n b c → ∃ k, k ≤ m + n ∧ EditRel k a c := by
    intro N
    induction N with
    | zero =>
        intro m n a b c hlen h1 h2
        have ha : a = [] := by
          cases a
          · rfl
          · simp at hlen
        have hb : b = [] := by
          cases b
          · rfl
          · simp at hlen
        have hc : c = [] := by
          cases c
          · rfl
          · simp at hlen
        subst ha; subst hb; subst hc
        cases h1
        cases h2
        exact ⟨0, by omega, .nil⟩
    | succ N ih =>
        intro m n a b c hlen h1 h2
        cases h2 with
        | nil => exact ⟨m, by omega, h1⟩
        | insert y h2' =>
            rename_i n' cs
            obtain ⟨k, hk, hrel⟩ := ih m n' a b cs
              (by simp only [List.length_cons] at hlen; omega) h1 h2'
            exact ⟨k + 1, by omega, .insert y hrel⟩
        | keep y h2' =>
            rename_i bs cs
            cases h1 with
            | keep x h1' =>
                rename_i as
                obtain ⟨k, hk, hrel⟩ := ih m n as bs cs
                  (by simp only [List.length_cons] at hlen; omega) h1' h2'
                exact ⟨k, by omega, .keep y hrel⟩
            | subst x z h1' =>
                rename_i m' as
                obtain ⟨k, hk, hrel⟩ := ih m' n as bs cs
                  (by simp only [List.length_cons] at hlen; omega) h1' h2'
                exact ⟨k + 1, by omega, .subst x y hrel⟩
            | insert z h1' =>
                rename_i m'
                obtain ⟨k, hk, hrel⟩ := ih m' n a bs cs
                  (by simp only [List.length_cons] at hlen; omega) h1' h2'
                exact ⟨k + 1, by omega, .insert y hrel⟩
            | delete x h1' =>
                rename_i m' as
                obtain ⟨k, hk, hrel⟩ := ih m' n as (y :: bs) (y :: cs)
                  (by simp only [List.length_cons] at hlen ⊢; omega) h1' (.keep y h2')
                exact ⟨k + 1, by omega, .delete x hrel⟩
        | subst y z h2' =>
            rename_i n' bs cs
            cases h1 with
            | keep x h1' =>
                rename_i as
                obtain ⟨k, hk, hrel⟩ := ih m n' as bs cs
                  (by simp only [List.length_cons] at hlen; omega) h1' h2'
                exact ⟨k + 1, by omega, .subst y z hrel⟩
            | subst x w h1' =>
                rename_i m' as
                obtain ⟨k, hk, hrel⟩ := ih m' n' as bs cs
                  (by simp only [List.length_cons] at hlen; omega) h1' h2'
                exact ⟨k + 1, by omega, .subst x z hrel⟩
            | insert w h1' =>
                rename_i m'
                obtain ⟨k, hk, hrel⟩ := ih m' n' a bs cs
                  (by simp only [List.length_cons] at hlen; omega) h1' h2'
                exact ⟨k + 1, by omega, .insert z hrel⟩
            | delete x h1' =>
                rename_i m' as
                obtain ⟨k, hk, hrel⟩ := ih m' (n' + 1) as (y :: bs) (z :: cs)
                  (by simp only [List.length_cons] at hlen ⊢; omega) h1' (.subst y z h2')
                exact ⟨k + 1, by omega, .delete x hrel⟩
        | delete y h2' =>
            rename_i n' bs
            cases h1 with
            | keep x h1' =>
                rename_i as
                obtain ⟨k, hk, hrel⟩ := ih m n' as bs c
                  (by simp only [List.length_cons] at hlen; omega) h1' h2'
                exact ⟨k + 1, by omega, .delete y hrel⟩
            | subst x w h1' =>
                rename_i m' as
                obtain ⟨k, hk, hrel⟩ := ih m' n' as bs c
                  (by simp only [List.length_cons] at hlen; omega) h1' h2'
                exact ⟨k + 1, by omega, .delete x hrel⟩
            | insert w h1' =>
                rename_i m'
                obtain ⟨k, hk, hrel⟩ := ih m' n' a bs c
                  (by simp only [List.length_cons] at hlen; omega) h1' h2'
                exact ⟨k, by omega, hrel⟩
            | delete x h1' =>
                rename_i m' as
                obtain ⟨k, hk, hrel⟩ := ih m' (n' + 1) as (y :: bs) c
                  (by simp only [List.length_cons] at hlen ⊢; omega) h1' (.delete y h2')
                exact ⟨k + 1, by omega, .delete x hrel⟩
  exact main (a.length + b.length + c.length) m n a b c (Nat.le_refl _) h1 h2

theorem frontLev_triangle (a b c : List Char) :
    frontLev a c ≤ frontLev a b + frontLev b c := by
  obtain ⟨k, hk, hrel⟩ := editRel_comp (editRel_frontLev a b) (editRel_frontLev b c)
  exact Nat.le_trans (frontLev_le_of_editRel hrel) hk

theorem prefLev_nil_right (u : List Char) : prefLev u [] = u.length := by
  unfold prefLev
  rw [List.reverse_nil, frontLev_nil_right, List.length_reverse]

theorem prefLev_nil_left (v : List Char) : prefLev [] v = v.length := by
  unfold prefLev
  rw [List.reverse_nil, frontLev_nil_left, List.length_reverse]

theorem prefLev_snoc_snoc (u v : List Char) (x y : Char) :
    prefLev (u ++ [x]) (v ++ [y]) =
      min (prefLev u (v ++ [y]) + 1)
        (min (prefLev (u ++ [x]) v + 1)
          (prefLev u v + (if x = y then 0 else 1))) := by
  unfold prefLev
  rw [show (u ++ [x]).reverse = x :: u.reverse by simp]
  rw [show (v ++ [y]).reverse = y :: v.reverse by simp]
  rw [show frontLev (x :: u.reverse) (y :: v.reverse) =
      min (frontLev u.reverse (y :: v.reverse) + 1)
        (min (frontLev (x :: u.reverse) v.reverse + 1)
          (frontLev u.reverse v.reverse + (if x = y then 0 else 1))) by
    simp [frontLev]]

/-- The tail of matrix row `i` (for the `a`-prefix `u`), beyond the
`b`-prefix `v`: the distances from `u` to each longer prefix of `b`. -/
def rowFrom (u v : List Char) : List Char → List Nat
  | [] => []
  | y :: ys => prefLev u (v ++ [y]) :: rowFrom u (v ++ [y]) ys

theorem levRow_spec (x : Char) (u : List Char) (ys : List Char) :
    ∀ v, levRow x ys (rowFrom u v ys) (prefLev u v) (prefLev (u ++ [x]) v) =
      rowFrom (u ++ [x]) v ys := by
  induction ys with
  | nil => intro v; rfl
  | cons y ys' ih =>
      intro v
      rw [show rowFrom u v (y :: ys') =
          prefLev u (v ++ [y]) :: rowFrom u (v ++ [y]) ys' from rfl]
      rw [show rowFrom (u ++ [x]) v (y :: ys') =
          prefLev (u ++ [x]) (v ++ [y]) :: rowFrom (u ++ [x]) (v ++ [y]) ys' from rfl]
      rw [levRow]
      rw [← prefLev_snoc_snoc u v x y]
      rw [ih (v ++ [y])]

theorem levStep_spec (b : List Char) (u : List Char) (x : Char) :
    levStep b (prefLev u [] :: rowFrom u [] b) x =
      prefLev (u ++ [x]) [] :: rowFrom (u ++ [x]) [] b := by
  rw [levStep]
  rw [show prefLev u [] + 1 = prefLev (u ++ [x]) [] by
    rw [prefLev_nil_right, prefLev_nil_right]; simp]
  rw [show prefLev (u ++ [x]) [] = prefLev (u ++ [x]) [] from rfl]
  rw [levRow_spec x u b []]

theorem levFold_spec (b : List Char) (a : List Char) :
    ∀ u, List.foldl (levStep b) (prefLev u [] :: rowFrom u [] b) a =
      prefLev (u ++ a) [] :: rowFrom (u ++ a) [] b := by
  induction a with
  | nil => intro u; simp
  | cons x a' ih =>
      intro u
      rw [List.foldl_cons, levStep_spec b u x, ih (u ++ [x])]
      simp

theorem rowFrom_nil_left (ys : List Char) :
    ∀ v, rowFrom [] v ys = (List.range ys.length).map (fun j => v.length + 1 + j) := by
  induction ys with
  | nil => intro v; rfl
  | cons y ys' ih =>
      intro v
      rw [show rowFrom [] v (y :: ys') =
          prefLev [] (v ++ [y]) :: rowFrom [] (v ++ [y]) ys' from rfl]
      rw [prefLev_nil_left, ih (v ++ [y])]
      rw [show (y :: ys').length = ys'.length + 1 by simp]
      rw [List.range_succ_eq_map, List.map_cons, List.map_map]
      rw [show (v ++ [y]).length = v.length + 1 by simp]
      rw [show ((fun j => v.length + 1 + j) ∘ Nat.succ) =
          (fun j => v.length + 1 + 1 + j) from funext fun j => by
        show v.length + 1 + Nat.succ j = v.length + 1 + 1 + j
        omega]

theorem levInit_spec (b : List Char) :
    List.range (b.length + 1) = prefLev [] [] :: rowFrom [] [] b := by
  rw [List.range_succ_eq_map, rowFrom_nil_left b [],
    show prefLev [] [] = 0 by rw [prefLev_nil_left]; rfl,
    show (Nat.succ : Nat → Nat) = (fun j => List.length ([] : List Char) + 1 + j) from
      funext fun j => by rw [List.length_nil]; omega]

theorem rowFrom_getLast (u : List Char) (ys : List Char) :
    ∀ v, (prefLev u v :: rowFrom u v ys).getLast? = some (prefLev u (v ++ ys)) := by
  induction ys with
  | nil => intro v; simp [rowFrom]
  | cons y ys' ih =>
      intro v
      rw [show rowFrom u v (y :: ys') =
          prefLev u (v ++ [y]) :: rowFrom u (v ++ [y]) ys' from rfl]
      rw [List.getLast?_cons_cons, ih (v ++ [y])]
      simp

/-- The matrix dynamic program computes the front recurrence on the
reversed lists. -/
theorem levenshtein_eq_prefLev (a b : List Char) :
    levenshtein a b = prefLev a b := by
  unfold levenshtein
  rw [levInit_spec b, levFold_spec b a [], List.nil_append, rowFrom_getLast a b [],
    List.nil_append]
  rfl

/-- C6: the registry's Levenshtein distance satisfies the metric laws:
`lev(a,a) = 0`, `lev(a,b) = lev(b,a)`, and the triangle inequality
`lev(a,c) ≤ lev(a,b) + lev(b,c)`, for all character lists. -/
theorem levenshtein_metric (a b c : List Char) :
    levenshtein a a = 0 ∧ levenshtein a b = levenshtein b a ∧
      levenshtein a c ≤ levenshtein a b + levenshtein b c := by
  refine ⟨?_, ?_, ?_⟩ <;> simp only [levenshtein_eq_prefLev, prefLev]
  · exact frontLev_self _
  · exact frontLev_comm _ _
  · exact frontLev_triangle _ _ _

/-! ### Function-name suggestions (`Registry::suggest_function`) -/

/-- Rust `str::to_lowercase`, modelled on ASCII via `Char.toLower`. -/
def toLowerStr (s : String) : String :=
  ⟨s.data.map Char.toLower⟩

/-- Rust `str::contains`: `needle` occurs as a contiguous substring. -/
def isSubOf (needle : List Char) : List Char → Bool
  | [] => needle.isEmpty
  | c :: t => needle.isPrefixOf (c :: t) || isSubOf needle t

/-- The similarity test of `Registry::suggest_function`
(`src/query/registry.rs`, lines 173–181): candidate name `n`, lowercased,
starts with / is started by / contains / is contained in the lowercased
query, or is within Levenshtein distance 2 of it. -/
def suggestFilter (name_lower : String) (n : String) : Bool :=
  let n_lower := toLowerStr n
  name_lower.data.isPrefixOf n_lower.data
    || n_lower.data.isPrefixOf name_lower.data
    || isSubOf name_lower.data n_lower.data
    || isSubOf n_lower.data name_lower.data
    || levenshtein n_lower.data name_lower.data ≤ 2

/-- The sort order of `suggest_function`: ascending
`levenshtein(s.to_lowercase(), name_lower)`. -/
def suggestLe (name_lower : String) (s1 s2 : String) : Prop :=
  levenshtein (toLowerStr s1).data name_lower.data ≤
    levenshtein (toLowerStr s2).data name_lower.data

instance (nl : String) : DecidableRel (suggestLe nl) := fun a b =>
  (inferInstance : Decidable (levenshtein (toLowerStr a).data nl.data ≤
    levenshtein (toLowerStr b).data nl.data))

/-- `Registry::suggest_function` from `src/query/registry.rs`.  The
`HashMap` of functions is modelled by the list of its keys in some
iteration order; Rust's stable `sort_by_key` is modelled by the stable
`List.insertionSort`, which agrees with any stable sort for the total
preorder `suggestLe`; `truncate(3)` is `take 3`. -/
def suggest_function (functions : List String) (name : String) : List String :=
  let name_lower := toLowerStr name
  let suggestions := functions.filter (suggestFilter name_lower)
  (suggestions.insertionSort (suggestLe name_lower)).take 3

/-- C5 counterexample: with registered names `["AB", "ax"]` and query
`"ab"`, the result is `["AB", "ax"]`, yet the Levenshtein distance of
`"AB"` to `"ab"` (names compared as registered, as the claim reads) is 2
while that of `"ax"` is 1 — the output is not sorted by ascending distance
to F lowercased.  The code sorts by the distance of the lowercased names
instead. -/
theorem suggest_function_counterexample :
    suggest_function ["AB", "ax"] "ab" = ["AB", "ax"] ∧
    levenshtein "AB".data (toLowerStr "ab").data = 2 ∧
    levenshtein "ax".data (toLowerStr "ab").data = 1 ∧ ¬ (2 ≤ 1) :=
  ⟨by decide, by decide, by decide, by decide⟩

/-- C5 (amended): for every registry and name F, `suggest_function` returns
at most three registered names, sorted by ascending Levenshtein distance
between the lowercased name and F lowercased, containing only names whose
lowercasing starts with, is started by, contains, is contained in, or is
within edit distance 2 of F lowercased; and the result is non-empty
whenever some registered name's lowercasing is within edit distance 2 of F
lowercased. -/
theorem suggest_function_spec (functions : List String) (name : String) :
    (suggest_function functions name).length ≤ 3 ∧
    (suggest_function functions name).Pairwise (suggestLe (toLowerStr name)) ∧
    (∀ s ∈ suggest_function functions name,
      s ∈ functions ∧
        ((toLowerStr name).data.isPrefixOf (toLowerStr s).data = true ∨
         (toLowerStr s).data.isPrefixOf (toLowerStr name).data = true ∨
         isSubOf (toLowerStr name).data (toLowerStr s).data = true ∨
         isSubOf (toLowerStr s).data (toLowerStr name).data = true ∨
         levenshtein (toLowerStr s).data (toLowerStr name).data ≤ 2)) ∧
    ((∃ n, n ∈ functions ∧
        levenshtein (toLowerStr n).data (toLowerStr name).data ≤ 2) →
      suggest_function functions name ≠ []) := by
  have hperm := List.perm_insertionSort (suggestLe (toLowerStr name))
    (functions.filter (suggestFilter (toLowerStr name)))
  refine ⟨?_, ?_, ?_, ?_⟩
  · unfold suggest_function
    rw [List.length_take]
    exact Nat.min_le_left _ _
  · haveI : IsTotal String (suggestLe (toLowerStr name)) :=
      ⟨fun a b => Nat.le_total _ _⟩
    haveI : IsTrans String (suggestLe (toLowerStr name)) :=
      ⟨fun a b c hab hbc => Nat.le_trans hab hbc⟩
    exact (List.sorted_insertionSort _ _).sublist (List.take_sublist _ _)
  · intro s hs
    unfold suggest_function at hs
    have hs2 : s ∈ (functions.filter
        (suggestFilter (toLowerStr name))).insertionSort
        (suggestLe (toLowerStr name)) := List.take_subset _ _ hs
    have hs3 : s ∈ functions.filter (suggestFilter (toLowerStr name)) :=
      (hperm.mem_iff).mp hs2
    rw [List.mem_filter] at hs3
    refine ⟨hs3.1, ?_⟩
    have hf := hs3.2
    unfold suggestFilter at hf
    simp only [Bool.or_eq_true, decide_eq_true_eq] at hf
    rcases hf with ((((h | h) | h) | h) | h)
    · exact Or.inl h
    · exact Or.inr (Or.inl h)
    · exact Or.inr (Or.inr (Or.inl h))
    · exact Or.inr (Or.inr (Or.inr (Or.inl h)))
    · exact Or.inr (Or.inr (Or.inr (Or.inr h)))
  · rintro ⟨n, hn, hlev⟩
    have hnf : n ∈ functions.filter (suggestFilter (toLowerStr name)) := by
      rw [List.mem_filter]
      refine ⟨hn, ?_⟩
      unfold suggestFilter
      simp only [Bool.or_eq_true, decide_eq_true_eq]
      exact Or.inr hlev
    have hne : functions.filter (suggestFilter (toLowerStr name)) ≠ [] :=
      fun h => by rw [h] at hnf; exact absurd hnf (List.not_mem_nil n)
    have hne2 : (functions.filter
        (suggestFilter (toLowerStr name))).insertionSort
        (suggestLe (toLowerStr name)) ≠ [] := by
      intro h
      exact hne ((h ▸ hperm).symm.eq_nil)
    have htake : ∀ l : List String, l ≠ [] → l.take 3 ≠ [] := by
      intro l hl
      cases l with
      | nil => exact absurd rfl hl
      | cons x t => simp [List.take]
    exact htake _ hne2

/-- Witness for `suggest_function_spec`: the registry `["count"]` queried
with `"cout"` (distance 1) yields a non-empty suggestion list of at most
three entries. -/
theorem suggest_function_spec_witness :
    (suggest_function ["count"] "cout").length ≤ 3 ∧
      suggest_function ["count"] "cout" ≠ [] :=
  ⟨(suggest_function_spec ["count"] "cout").1,
   (suggest_function_spec ["count"] "cout").2.2.2 ⟨"count", by decide, by decide⟩⟩

/-! ### Document model and `build_tree` (`src/parser/document.rs`)

`Document::build_tree` scans the flat heading list once with a stack of
`(level, nodeId)`: for each heading it pops the stack while the top's
level is ≥ the incoming level, attaches the new node under the remaining
top (or records a root), and pushes.  Node ids are the indices into the
heading list (the arena allocates them in that order); the arena is
modelled by the `children : Nat → List Nat` map, `NodeId::append` being
an append to the parent's child list.  `build_heading_node` then reads the
arena off into `HeadingNode`s; its recursion is modelled with a fuel
argument (every child id exceeds its parent's, so fuel `n` suffices). -/

/-- `Heading` from `src/parser/document.rs`. -/
structure DocHeading where
  level : Nat
  text : List Char
deriving DecidableEq, Repr

/-- `Document` from `src/parser/document.rs`. -/
structure Document where
  content : List Char
  headings : List DocHeading
deriving DecidableEq, Repr

/-- `HeadingNode` from `src/parser/document.rs`. -/
inductive HeadingNode where
  | mk (heading : DocHeading) (children : List HeadingNode)

/-- The heading stored at a node. -/
def HeadingNode.heading : HeadingNode → DocHeading
  | ⟨h, _⟩ => h

/-- The child nodes of a node. -/
def HeadingNode.children : HeadingNode → List HeadingNode
  | ⟨_, c⟩ => c

/-- The state of `build_tree`'s scan: the stack of `(level, nodeId)`
pairs (list head = stack top), the root ids in order, and the arena's
child lists. -/
structure BuildState where
  stack : List (Nat × Nat)
  roots : List Nat
  children : Nat → List Nat

/-- One iteration of the `build_tree` loop on heading `p.1` (its index /
node id) with level `p.2`: pop while the top's level is not smaller than
the incoming level, then attach and push. -/
def build_step (st : BuildState) (p : Nat × Nat) : BuildState :=
  match p with
  | (k, lvl) =>
    match st.stack.dropWhile (fun q => decide (lvl ≤ q.1)) with
    | [] => ⟨[(lvl, k)], st.roots ++ [k], st.children⟩
    | (pl, pid) :: rest =>
        ⟨(lvl, k) :: (pl, pid) :: rest, st.roots,
          fun j => if j = pid then st.children j ++ [k] else st.children j⟩

/-- The scan of `build_tree` over the heading levels (ids = indices). -/
def build_arena (levels : List Nat) : BuildState :=
  levels.enum.foldl build_step ⟨[], [], fun _ => []⟩

/-- `build_heading_node` from `src/parser/document.rs`, with fuel standing
in for the arena recursion (plenty of fuel is passed in `build_tree`). -/
def build_heading_node (hs : List DocHeading) (ch : Nat → List Nat) :
    Nat → Nat → HeadingNode
  | 0, i => ⟨hs.getD i ⟨0, []⟩, []⟩
  | fuel + 1, i => ⟨hs.getD i ⟨0, []⟩, (ch i).map (build_heading_node hs ch fuel)⟩

/-- `Document::build_tree` from `src/parser/document.rs`. -/
def Document.build_tree (doc : Document) : List HeadingNode :=
  let st := build_arena (doc.headings.map (fun h => h.level))
  st.roots.map (build_heading_node doc.headings st.children
    (doc.headings.length + 1))

/-- Claim-side: the nearest preceding index with a strictly smaller level
(searching downward from `k`). -/
def nearAux (levels : List Nat) (lk : Nat) : Nat → Option Nat
  | 0 => none
  | j + 1 => if levels.getD j 0 < lk then some j else nearAux levels lk j

/-- Claim-side: `nearestLT levels k` is the largest `j < k` whose level is
strictly smaller than `k`'s, `none` when there is no such `j`. -/
def nearestLT (levels : List Nat) (k : Nat) : Option Nat :=
  nearAux levels (levels.getD k 0) k

/-- Proof artifact: the ids on the stack after `k` headings, top first —
exactly those `j < k` every later processed heading strictly exceeds in
level. -/
def chain (levels : List Nat) : Nat → List Nat
  | 0 => []
  | k + 1 =>
      k :: (chain levels k).filter
        (fun j => decide (levels.getD j 0 < levels.getD k 0))

/-- Proof artifact: the build state after the first `k` headings. -/
def invState (levels : List Nat) (k : Nat) : BuildState :=
  ⟨(chain levels k).map (fun j => (levels.getD j 0, j)),
   (List.range k).filter (fun j => (nearestLT levels j).isNone),
   fun p => (List.range k).filter (fun j => decide (nearestLT levels j = some p))⟩

theorem chain_lt (levels : List Nat) (k : Nat) :
    ∀ j ∈ chain levels k, j < k := by
  induction k with
  | zero => intro j hj; simp [chain] at hj
  | succ k ih =>
      intro j hj
      rw [chain] at hj
      rcases List.mem_cons.mp hj with rfl | hj2
      · omega
      · exact Nat.lt_succ_of_lt (ih j (List.mem_of_mem_filter hj2))

theorem chain_index_dec (levels : List Nat) (k : Nat) :
    (chain levels k).Pairwise (fun a b => b < a) := by
  induction k with
  | zero => simp [chain]
  | succ k ih =>
      rw [chain]
      refine List.Pairwise.cons ?_ (ih.sublist (List.filter_sublist _))
      intro b hb
      exact chain_lt levels k b (List.mem_of_mem_filter hb)

theorem chain_levels_dec (levels : List Nat) (k : Nat) :
    (chain levels k).Pairwise
      (fun a b => levels.getD b 0 < levels.getD a 0) := by
  induction k with
  | zero => simp [chain]
  | succ k ih =>
      rw [chain]
      refine List.Pairwise.cons ?_ (ih.sublist (List.filter_sublist _))
      intro b hb
      have := List.of_mem_filter hb
      simpa using this

theorem chain_mem_iff (levels : List Nat) (k : Nat) (j : Nat) :
    j ∈ chain levels k ↔
      j < k ∧ ∀ j2, j < j2 → j2 < k → levels.getD j 0 < levels.getD j2 0 := by
  induction k with
  | zero => simp [chain]
  | succ k ih =>
      rw [chain]
      constructor
      · intro hj
        rcases List.mem_cons.mp hj with rfl | hj2
        · exact ⟨Nat.lt_succ_self _, fun j2 h1 h2 => absurd h2 (by omega)⟩
        · have hmem := List.mem_of_mem_filter hj2
          have hlt := List.of_mem_filter hj2
          simp only [decide_eq_true_eq] at hlt
          obtain ⟨hjk, hall⟩ := (ih).mp hmem
          refine ⟨by omega, ?_⟩
          intro j2 h1 h2
          by_cases hj2k : j2 = k
          · subst hj2k; exact hlt
          · exact hall j2 h1 (by omega)
      · rintro ⟨hjk, hall⟩
        by_cases hjeq : j = k
        · subst hjeq; exact List.mem_cons_self _ _
        · have hjk2 : j < k := by omega
          refine List.mem_cons_of_mem _ (List.mem_filter.mpr ⟨?_, ?_⟩)
          · exact (ih).mpr ⟨hjk2, fun j2 h1 h2 => hall j2 h1 (by omega)⟩
          · simp only [decide_eq_true_eq]
            exact hall k hjk2 (Nat.lt_succ_self _)

theorem nearAux_eq_none_iff (levels : List Nat) (lk m : Nat) :
    nearAux levels lk m = none ↔
      ∀ j, j < m → ¬ levels.getD j 0 < lk := by
  induction m with
  | zero => simp [nearAux]
  | succ m ih =>
      rw [nearAux]
      by_cases h : levels.getD m 0 < lk
      · simp only [if_pos h]
        constructor
        · intro h2; exact absurd h2 (by simp)
        · intro h2; exact absurd h (h2 m (Nat.lt_succ_self _))
      · simp only [if_neg h]
        rw [ih]
        constructor
        · intro h2 j hj
          by_cases hjm : j = m
          · subst hjm; exact h
          · exact h2 j (by omega)
        · intro h2 j hj
          exact h2 j (by omega)

theorem nearAux_eq_some_iff (levels : List Nat) (lk m i : Nat) :
    nearAux levels lk m = some i ↔
      i < m ∧ levels.getD i 0 < lk ∧
        ∀ j, i < j → j < m → ¬ levels.getD j 0 < lk := by
  induction m with
  | zero => simp [nearAux]
  | succ m ih =>
      rw [nearAux]
      by_cases h : levels.getD m 0 < lk
      · simp only [if_pos h, Option.some.injEq]
        constructor
        · rintro rfl
          exact ⟨Nat.lt_succ_self _, h, fun j h1 h2 => absurd h2 (by omega)⟩
        · rintro ⟨h1, h2, h3⟩
          by_cases him : i = m
          · exact him.symm
          · exact absurd h (h3 m (by omega) (Nat.lt_succ_self _))
      · simp only [if_neg h]
        rw [ih]
        constructor
        · rintro ⟨h1, h2, h3⟩
          refine ⟨by omega, h2, ?_⟩
          intro j hj1 hj2
          by_cases hjm : j = m
          · subst hjm; exact h
          · exact h3 j hj1 (by omega)
        · rintro ⟨h1, h2, h3⟩
          by_cases him : i = m
          · subst him; exact absurd h2 h
          · exact ⟨by omega, h2, fun j hj1 hj2 => h3 j hj1 (by omega)⟩

theorem dropWhile_pairs_eq_filter (levels : List Nat) (L : Nat) :
    ∀ l : List Nat,
      l.Pairwise (fun a b => levels.getD b 0 < levels.getD a 0) →
      (l.map (fun j => (levels.getD j 0, j))).dropWhile
          (fun q => decide (L ≤ q.1)) =
        (l.filter (fun j => decide (levels.getD j 0 < L))).map
          (fun j => (levels.getD j 0, j)) := by
  intro l hl
  induction l with
  | nil => rfl
  | cons j t ih =>
      rw [List.pairwise_cons] at hl
      by_cases h : levels.getD j 0 < L
      · have hall : t.filter (fun j => decide (levels.getD j 0 < L)) = t :=
          List.filter_eq_self.mpr fun b hb => by
            simp only [decide_eq_true_eq]
            exact Nat.lt_trans (hl.1 b hb) h
        rw [List.map_cons,
          List.dropWhile_cons_of_neg (by simp only [decide_eq_true_eq]; omega),
          List.filter_cons_of_pos (by simp only [decide_eq_true_eq]; omega), hall,
          List.map_cons]
      · rw [List.map_cons,
          List.dropWhile_cons_of_pos (by simp only [decide_eq_true_eq]; omega),
          List.filter_cons_of_neg (by simp only [decide_eq_true_eq]; omega)]
        exact ih hl.2

theorem head_of_index_dec {l : List Nat} {i : Nat}
    (hdec : l.Pairwise (fun a b => b < a)) (hmem : i ∈ l)
    (hmax : ∀ j ∈ l, j ≤ i) : ∃ rest, l = i :: rest := by
  cases l with
  | nil => exact absurd hmem (List.not_mem_nil i)
  | cons a t =>
      rcases List.mem_cons.mp hmem with rfl | hit
      · exact ⟨t, rfl⟩
      · rw [List.pairwise_cons] at hdec
        have h1 : i < a := hdec.1 i hit
        have h2 : a ≤ i := hmax a (List.mem_cons_self _ _)
        omega

theorem BuildState.mk_eq {a a' : List (Nat × Nat)} {b b' : List Nat}
    {c c' : Nat → List Nat} (ha : a = a') (hb : b = b')
    (hc : ∀ p, c p = c' p) : BuildState.mk a b c = BuildState.mk a' b' c' := by
  subst ha
  subst hb
  have h : c = c' := funext hc
  subst h
  rfl

theorem build_step_inv (levels : List Nat) (k : Nat) :
    build_step (invState levels k) (k, levels.getD k 0) =
      invState levels (k + 1) := by
  have hstack2 :
      ((chain levels k).map (fun j => (levels.getD j 0, j))).dropWhile
          (fun q => decide (levels.getD k 0 ≤ q.1)) =
        ((chain levels k).filter
          (fun j => decide (levels.getD j 0 < levels.getD k 0))).map
          (fun j => (levels.getD j 0, j)) :=
    dropWhile_pairs_eq_filter levels (levels.getD k 0) (chain levels k)
      (chain_levels_dec levels k)
  cases hnear : nearestLT levels k with
  | none =>
      have hfilter :
          (chain levels k).filter
            (fun j => decide (levels.getD j 0 < levels.getD k 0)) = [] := by
        rw [List.filter_eq_nil]
        intro j hj
        have hjk := chain_lt levels k j hj
        have := (nearAux_eq_none_iff levels (levels.getD k 0) k).mp hnear
        simpa using this j hjk
      rw [show build_step (invState levels k) (k, levels.getD k 0) =
          BuildState.mk [(levels.getD k 0, k)]
            ((invState levels k).roots ++ [k]) (invState levels k).children by
        simp only [build_step, invState, hstack2, hfilter, List.map_nil]]
      refine BuildState.mk_eq ?_ ?_ ?_
      · rw [chain, hfilter]
        rfl
      · rw [List.range_succ, List.filter_append]
        simp [invState, hnear]
      · intro p
        rw [List.range_succ, List.filter_append]
        simp [invState, hnear]
  | some i =>
      have hsome := (nearAux_eq_some_iff levels (levels.getD k 0) k i).mp hnear
      obtain ⟨hik, hilt, hmax⟩ := hsome
      have himem : i ∈ (chain levels k).filter
          (fun j => decide (levels.getD j 0 < levels.getD k 0)) := by
        rw [List.mem_filter]
        refine ⟨?_, by simpa using hilt⟩
        rw [chain_mem_iff]
        refine ⟨hik, ?_⟩
        intro j2 h1 h2
        have := hmax j2 h1 h2
        omega
      have hup : ∀ j ∈ (chain levels k).filter
          (fun j => decide (levels.getD j 0 < levels.getD k 0)), j ≤ i := by
        intro j hj
        rw [List.mem_filter] at hj
        have hjk := chain_lt levels k j hj.1
        have hjlt : levels.getD j 0 < levels.getD k 0 := by simpa using hj.2
        by_contra hcon
        exact (hmax j (by omega) hjk) hjlt
      obtain ⟨rest, hrest⟩ := head_of_index_dec
        ((chain_index_dec levels k).sublist (List.filter_sublist _)) himem hup
      rw [show build_step (invState levels k) (k, levels.getD k 0) =
          BuildState.mk
            ((levels.getD k 0, k) :: (levels.getD i 0, i) ::
              rest.map (fun j => (levels.getD j 0, j)))
            (invState levels k).roots
            (fun j => if j = i then (invState levels k).children j ++ [k]
              else (invState levels k).children j) by
        simp only [build_step, invState, hstack2, hrest, List.map_cons]]
      refine BuildState.mk_eq ?_ ?_ ?_
      · rw [chain, hrest]
        rfl
      · rw [List.range_succ, List.filter_append]
        simp [invState, hnear]
      · intro p
        rw [List.range_succ, List.filter_append]
        by_cases hp : p = i
        · subst hp
          simp [invState, hnear]
        · have hpi : ¬ i = p := fun e => hp e.symm
          simp [invState, hnear, hp, hpi]

theorem build_fold (levels : List Nat) :
    ∀ (post : List Nat) (k : Nat), levels.drop k = post →
      (List.enumFrom k post).foldl build_step (invState levels k) =
        invState levels (k + post.length) := by
  intro post
  induction post with
  | nil => intro k h; simp
  | cons lvl rest ih =>
      intro k h
      have h0 : levels[k]? = some lvl := by
        have h1 : (levels.drop k)[0]? = levels[k + 0]? := List.getElem?_drop levels k 0
        rw [h] at h1
        simpa using h1.symm
      have hk : levels.getD k 0 = lvl := by
        rw [List.getD_eq_getElem?_getD, h0]
        rfl
      have hdrop : levels.drop (k + 1) = rest := by
        rw [← List.tail_drop, h]
        rfl
      rw [show List.enumFrom k (lvl :: rest) = (k, lvl) :: List.enumFrom (k + 1) rest
          from rfl]
      rw [List.foldl_cons, ← hk, build_step_inv, ih (k + 1) hdrop]
      refine congrArg (invState levels) ?_
      simp only [List.length_cons]
      omega

theorem build_arena_eq (levels : List Nat) :
    build_arena levels = invState levels levels.length := by
  unfold build_arena
  have hinit : (⟨[], [], fun _ => []⟩ : BuildState) = invState levels 0 := by
    refine BuildState.mk_eq ?_ ?_ ?_
    · rfl
    · rfl
    · intro p; rfl
  rw [show levels.enum = List.enumFrom 0 levels from rfl, hinit,
    build_fold levels levels 0 (by simp)]
  rw [Nat.zero_add]

/-- Preorder flattening of a heading forest: each node's heading, then its
children's flattening, then the remaining trees'. -/
def flattenForest : List HeadingNode → List DocHeading
  | [] => []
  | ⟨h, cs⟩ :: rest => h :: (flattenForest cs ++ flattenForest rest)

theorem flattenForest_cons (h : DocHeading) (cs rest : List HeadingNode) :
    flattenForest (⟨h, cs⟩ :: rest) =
      h :: (flattenForest cs ++ flattenForest rest) := by
  simp [flattenForest]

/-- Proof artifact: the arena's child list at `p` (cf. `invState`). -/
def chOf (levels : List Nat) (p : Nat) : List Nat :=
  (List.range levels.length).filter
    (fun j => decide (nearestLT levels j = some p))

/-- Proof artifact: the arena's root list (cf. `invState`). -/
def rootsOf (levels : List Nat) : List Nat :=
  (List.range levels.length).filter (fun j => (nearestLT levels j).isNone)

/-- Proof artifact: the children of `p` with index at least `s`. -/
def chFrom (levels : List Nat) (p s : Nat) : List Nat :=
  (List.range levels.length).filter
    (fun j => decide (nearestLT levels j = some p ∧ s ≤ j))

/-- Proof artifact: the roots with index at least `s`. -/
def rootsFrom (levels : List Nat) (s : Nat) : List Nat :=
  (List.range levels.length).filter
    (fun j => decide (nearestLT levels j = none ∧ s ≤ j))

/-- Scan upward from `s` (with fuel `t`) for the first index whose level is
at most `li`; returns the scan end when there is none. -/
def bndFrom (levels : List Nat) (li : Nat) : Nat → Nat → Nat
  | 0, s => s
  | t + 1, s => if levels.getD s 0 ≤ li then s else bndFrom levels li t (s + 1)

/-- The end of the subtree-interval scan for a parent of level `lp`
starting at `s`. -/
def sibStop (levels : List Nat) (lp s : Nat) : Nat :=
  bndFrom levels lp (levels.length - s) s

/-- The end of the subtree of node `s`: the first later index whose level
does not exceed `s`'s (the source length when none). -/
def bnd (levels : List Nat) (s : Nat) : Nat :=
  sibStop levels (levels.getD s 0) (s + 1)

theorem bndFrom_spec (levels : List Nat) (li : Nat) :
    ∀ t s, s ≤ bndFrom levels li t s ∧ bndFrom levels li t s ≤ s + t ∧
      (∀ m, s ≤ m → m < bndFrom levels li t s → li < levels.getD m 0) ∧
      (bndFrom levels li t s < s + t →
        levels.getD (bndFrom levels li t s) 0 ≤ li) := by
  intro t
  induction t with
  | zero =>
      intro s
      refine ⟨Nat.le_refl _, Nat.le_refl _, ?_, ?_⟩
      · intro m h1 h2
        rw [bndFrom] at h2
        omega
      · intro h
        rw [bndFrom] at h
        omega
  | succ t ih =>
      intro s
      rw [bndFrom]
      by_cases h : levels.getD s 0 ≤ li
      · rw [if_pos h]
        exact ⟨Nat.le_refl _, by omega, fun m h1 h2 => by omega, fun _ => h⟩
      · rw [if_neg h]
        obtain ⟨ha, hb, hc, hd⟩ := ih (s + 1)
        refine ⟨by omega, by omega, ?_, ?_⟩
        · intro m h1 h2
          by_cases hm : m = s
          · subst hm; omega
          · exact hc m (by omega) h2
        · intro h2
          exact hd (by omega)

theorem bndFrom_eq_of_no_hit (levels : List Nat) (li : Nat) :
    ∀ t1 s t2 u, s ≤ u → u + t2 = s + t1 →
      (∀ m, s ≤ m → m < u → li < levels.getD m 0) →
      bndFrom levels li t1 s = bndFrom levels li t2 u := by
  intro t1
  induction t1 with
  | zero =>
      intro s t2 u h1 h2 h3
      have hu : u = s := by omega
      have ht : t2 = 0 := by omega
      subst hu; subst ht; rfl
  | succ t1 ih =>
      intro s t2 u h1 h2 h3
      by_cases hsu : s = u
      · subst hsu
        have ht : t2 = t1 + 1 := by omega
        subst ht; rfl
      · have hlt : li < levels.getD s 0 := h3 s (Nat.le_refl _) (by omega)
        rw [bndFrom, if_neg (by omega)]
        exact ih (s + 1) t2 u (by omega) (by omega)
          (fun m hm1 hm2 => h3 m (by omega) hm2)

theorem filter_range_split (n s : Nat) (q q' : Nat → Bool) (hsn : s < n)
    (h1 : ∀ j, q j = true → s ≤ j) (h2 : q s = true)
    (h3 : ∀ j, s < j → q j = q' j) (h4 : ∀ j, q' j = true → s < j) :
    (List.range n).filter q = s :: (List.range n).filter q' := by
  have hsplit : List.range n =
      List.range' 0 s ++ (s :: List.range' (s + 1) (n - s - 1)) := by
    obtain ⟨k, rfl⟩ : ∃ k, n = k + 1 + s := ⟨n - s - 1, by omega⟩
    have h5 := List.range'_append_1 0 s (k + 1)
    rw [Nat.zero_add] at h5
    rw [show k + 1 + s - s - 1 = k by omega]
    rw [List.range_eq_range', ← h5, List.range'_succ]
  have hlow : ∀ r : Nat → Bool, (∀ j, r j = true → s ≤ j) →
      (List.range' 0 s).filter r = [] := by
    intro r hr
    rw [List.filter_eq_nil_iff]
    intro j hj
    rw [List.mem_range'_1] at hj
    intro hc
    have := hr j hc
    omega
  have htail : (List.range' (s + 1) (n - s - 1)).filter q =
      (List.range' (s + 1) (n - s - 1)).filter q' := by
    apply List.filter_congr
    intro j hj
    rw [List.mem_range'_1] at hj
    exact h3 j (by omega)
  rw [hsplit, List.filter_append, List.filter_append,
    hlow q h1, hlow q' (fun j hj => Nat.le_of_lt (h4 j hj)),
    List.filter_cons_of_pos h2, htail,
    List.filter_cons_of_neg (by
      intro hc
      exact absurd (h4 s hc) (by omega))]
  rfl

theorem chFrom_at_end (levels : List Nat) (p : Nat) :
    chFrom levels p levels.length = [] := by
  rw [chFrom, List.filter_eq_nil_iff]
  intro j hj
  rw [List.mem_range] at hj
  simp only [decide_eq_true_eq, not_and]
  intro _
  omega

theorem sibStop_at_end (levels : List Nat) (lp : Nat) :
    sibStop levels lp levels.length = levels.length := by
  rw [sibStop, Nat.sub_self]
  rfl

theorem sib_flatten (levels : List Nat) (hs : List DocHeading) :
    ∀ gas p s fuel,
      levels.length - s ≤ gas →
      p < s → s ≤ levels.length →
      levels.length ≤ fuel + s →
      (∀ j, p < j → j < s → levels.getD s 0 ≤ levels.getD j 0) →
      flattenForest ((chFrom levels p s).map
        (build_heading_node hs (chOf levels) fuel)) =
      (List.range' s (sibStop levels (levels.getD p 0) s - s)).map
        (fun i => hs.getD i ⟨0, []⟩) := by
  intro gas
  induction gas with
  | zero =>
      intro p s fuel hgas hps hsn hfuel hinv
      have hseq : s = levels.length := by omega
      subst hseq
      rw [chFrom_at_end, sibStop_at_end, Nat.sub_self]
      simp [flattenForest]
  | succ gas ih =>
      intro p s fuel hgas hps hsn hfuel hinv
      by_cases hend : s = levels.length
      · subst hend
        rw [chFrom_at_end, sibStop_at_end, Nat.sub_self]
        simp [flattenForest]
      · have hsn' : s < levels.length := by omega
        by_cases hcross : levels.getD s 0 ≤ levels.getD p 0
        · have hstop : sibStop levels (levels.getD p 0) s = s := by
            rw [sibStop, show levels.length - s = (levels.length - s - 1) + 1 by omega,
              bndFrom, if_pos hcross]
          have hempty : chFrom levels p s = [] := by
            rw [chFrom, List.filter_eq_nil_iff]
            intro j hj
            simp only [decide_eq_true_eq, not_and]
            intro hP hsj
            obtain ⟨hpj, hplt, hmax⟩ :=
              (nearAux_eq_some_iff levels (levels.getD j 0) j p).mp hP
            by_cases hjs : j = s
            · subst hjs; omega
            · exact hmax s hps (by omega) (by omega)
          rw [hempty, hstop, Nat.sub_self]
          simp [flattenForest]
        · have hPs : nearestLT levels s = some p := by
            rw [nearestLT, nearAux_eq_some_iff]
            refine ⟨hps, by omega, ?_⟩
            intro j hj1 hj2
            have := hinv j hj1 hj2
            omega
          obtain ⟨hb1, hb2, hb3, hb4⟩ :=
            bndFrom_spec levels (levels.getD s 0) (levels.length - (s + 1)) (s + 1)
          have hbnddef : bnd levels s = bndFrom levels (levels.getD s 0)
              (levels.length - (s + 1)) (s + 1) := rfl
          have hbge : s + 1 ≤ bnd levels s := by rw [hbnddef]; exact hb1
          have hble : bnd levels s ≤ levels.length := by
            rw [hbnddef]; omega
          have hbgt : ∀ m, s + 1 ≤ m → m < bnd levels s →
              levels.getD s 0 < levels.getD m 0 := by
            intro m h1 h2
            rw [hbnddef] at h2
            exact hb3 m h1 h2
          have hbcross : bnd levels s < levels.length →
              levels.getD (bnd levels s) 0 ≤ levels.getD s 0 := by
            intro h
            rw [hbnddef] at h ⊢
            exact hb4 (by omega)
          have hsplit : chFrom levels p s = s :: chFrom levels p (bnd levels s) := by
            rw [chFrom, chFrom]
            apply filter_range_split _ _ _ _ hsn'
            · intro j hj
              simp only [decide_eq_true_eq] at hj
              exact hj.2
            · simp only [decide_eq_true_eq]
              exact ⟨hPs, Nat.le_refl s⟩
            · intro j hjs
              apply decide_eq_decide.mpr
              constructor
              · rintro ⟨hP, _⟩
                refine ⟨hP, ?_⟩
                by_contra hc
                push_neg at hc
                have hgt : levels.getD s 0 < levels.getD j 0 :=
                  hbgt j (by omega) hc
                obtain ⟨_, _, hmax⟩ :=
                  (nearAux_eq_some_iff levels (levels.getD j 0) j p).mp hP
                exact hmax s hps hjs hgt
              · rintro ⟨hP, hbj⟩
                exact ⟨hP, by omega⟩
            · intro j hj
              simp only [decide_eq_true_eq] at hj
              omega
          obtain ⟨f, rfl⟩ : ∃ f, fuel = f + 1 := ⟨fuel - 1, by omega⟩
          have hchs : chOf levels s = chFrom levels s (s + 1) := by
            rw [chOf, chFrom]
            apply List.filter_congr
            intro j hj
            apply decide_eq_decide.mpr
            constructor
            · intro hP
              obtain ⟨h1, _, _⟩ :=
                (nearAux_eq_some_iff levels (levels.getD j 0) j s).mp hP
              exact ⟨hP, by omega⟩
            · exact fun h => h.1
          have hinner := ih s (s + 1) f (by omega) (by omega) (by omega)
            (by omega) (fun j h1 h2 => by omega)
          have hinvb : ∀ j, p < j → j < bnd levels s →
              levels.getD (bnd levels s) 0 ≤ levels.getD j 0 := by
            intro j h1 h2
            by_cases hbn : bnd levels s < levels.length
            · have hc := hbcross hbn
              rcases Nat.lt_trichotomy j s with hjs | hjs | hjs
              · have := hinv j h1 hjs
                omega
              · subst hjs
                omega
              · have := hbgt j (by omega) h2
                omega
            · have hz : levels.getD (bnd levels s) 0 = 0 := by
                rw [List.getD_eq_getElem?_getD, List.getElem?_eq_none (by omega)]
                rfl
              omega
          have houter := ih p (bnd levels s) (f + 1) (by omega) (by omega) hble
            (by omega) hinvb
          have hstable : sibStop levels (levels.getD p 0) s =
              sibStop levels (levels.getD p 0) (bnd levels s) := by
            rw [sibStop, sibStop]
            apply bndFrom_eq_of_no_hit
            · omega
            · omega
            · intro m h1 h2
              by_cases hms : m = s
              · subst hms; omega
              · have := hbgt m (by omega) h2
                omega
          have hstop1 : bnd levels s ≤ sibStop levels (levels.getD p 0) (bnd levels s) :=
            (bndFrom_spec levels (levels.getD p 0)
              (levels.length - bnd levels s) (bnd levels s)).1
          have hbeq : sibStop levels (levels.getD s 0) (s + 1) = bnd levels s := rfl
          rw [hsplit, List.map_cons]
          rw [show build_heading_node hs (chOf levels) (f + 1) s =
              ⟨hs.getD s ⟨0, []⟩,
                (chOf levels s).map (build_heading_node hs (chOf levels) f)⟩
              from rfl]
          rw [flattenForest_cons]
          rw [hchs, hinner, houter, ← List.map_append]
          have hjoin : List.range' (s + 1)
                (sibStop levels (levels.getD s 0) (s + 1) - (s + 1)) ++
              List.range' (bnd levels s)
                (sibStop levels (levels.getD p 0) (bnd levels s) - bnd levels s) =
              List.range' (s + 1)
                (sibStop levels (levels.getD p 0) s - (s + 1)) := by
            have h6 := List.range'_append_1 (s + 1)
              (sibStop levels (levels.getD s 0) (s + 1) - (s + 1))
              (sibStop levels (levels.getD p 0) (bnd levels s) - bnd levels s)
            rw [show (s + 1) + (sibStop levels (levels.getD s 0) (s + 1) - (s + 1)) =
                bnd levels s from by
              rw [show sibStop levels (levels.getD s 0) (s + 1) = bnd levels s from rfl]
              omega] at h6
            rw [h6]
            congr 1
            omega
          rw [hjoin]
          rw [show List.range' s (sibStop levels (levels.getD p 0) s - s) =
              s :: List.range' (s + 1)
                (sibStop levels (levels.getD p 0) s - (s + 1)) from by
            rw [show sibStop levels (levels.getD p 0) s - s =
                (sibStop levels (levels.getD p 0) s - (s + 1)) + 1 by omega,
              List.range'_succ]]
          rfl

theorem rootsFrom_at_end (levels : List Nat) :
    rootsFrom levels levels.length = [] := by
  rw [rootsFrom, List.filter_eq_nil_iff]
  intro j hj
  rw [List.mem_range] at hj
  simp only [decide_eq_true_eq, not_and]
  intro _
  omega

theorem chOf_eq_chFrom (levels : List Nat) (s : Nat) :
    chOf levels s = chFrom levels s (s + 1) := by
  rw [chOf, chFrom]
  apply List.filter_congr
  intro j hj
  apply decide_eq_decide.mpr
  constructor
  · intro hP
    obtain ⟨h1, _, _⟩ :=
      (nearAux_eq_some_iff levels (levels.getD j 0) j s).mp hP
    exact ⟨hP, by omega⟩
  · exact fun h => h.1

theorem roots_flatten (levels : List Nat) (hs : List DocHeading) :
    ∀ gas s fuel,
      levels.length - s ≤ gas → s ≤ levels.length →
      levels.length ≤ fuel + s →
      (∀ j, j < s → levels.getD s 0 ≤ levels.getD j 0) →
      flattenForest ((rootsFrom levels s).map
        (build_heading_node hs (chOf levels) fuel)) =
      (List.range' s (levels.length - s)).map (fun i => hs.getD i ⟨0, []⟩) := by
  intro gas
  induction gas with
  | zero =>
      intro s fuel hgas hsn hfuel hinv
      have hseq : s = levels.length := by omega
      subst hseq
      rw [rootsFrom_at_end, Nat.sub_self]
      simp [flattenForest]
  | succ gas ih =>
      intro s fuel hgas hsn hfuel hinv
      by_cases hend : s = levels.length
      · subst hend
        rw [rootsFrom_at_end, Nat.sub_self]
        simp [flattenForest]
      · have hsn' : s < levels.length := by omega
        have hPs : nearestLT levels s = none := by
          rw [nearestLT, nearAux_eq_none_iff]
          intro j hj
          have := hinv j hj
          omega
        obtain ⟨hb1, hb2, hb3, hb4⟩ :=
          bndFrom_spec levels (levels.getD s 0) (levels.length - (s + 1)) (s + 1)
        have hbnddef : bnd levels s = bndFrom levels (levels.getD s 0)
            (levels.length - (s + 1)) (s + 1) := rfl
        have hbge : s + 1 ≤ bnd levels s := by rw [hbnddef]; exact hb1
        have hble : bnd levels s ≤ levels.length := by
          rw [hbnddef]; omega
        have hbgt : ∀ m, s + 1 ≤ m → m < bnd levels s →
            levels.getD s 0 < levels.getD m 0 := by
          intro m h1 h2
          rw [hbnddef] at h2
          exact hb3 m h1 h2
        have hbcross : bnd levels s < levels.length →
            levels.getD (bnd levels s) 0 ≤ levels.getD s 0 := by
          intro h
          rw [hbnddef] at h ⊢
          exact hb4 (by omega)
        have hsplit : rootsFrom levels s = s :: rootsFrom levels (bnd levels s) := by
          rw [rootsFrom, rootsFrom]
          apply filter_range_split _ _ _ _ hsn'
          · intro j hj
            simp only [decide_eq_true_eq] at hj
            exact hj.2
          · simp only [decide_eq_true_eq]
            exact ⟨hPs, Nat.le_refl s⟩
          · intro j hjs
            apply decide_eq_decide.mpr
            constructor
            · rintro ⟨hP, _⟩
              refine ⟨hP, ?_⟩
              by_contra hc
              push_neg at hc
              have hgt : levels.getD s 0 < levels.getD j 0 :=
                hbgt j (by omega) hc
              have := (nearAux_eq_none_iff levels (levels.getD j 0) j).mp hP s hjs
              exact this hgt
            · rintro ⟨hP, hbj⟩
              exact ⟨hP, by omega⟩
          · intro j hj
            simp only [decide_eq_true_eq] at hj
            omega
        obtain ⟨f, rfl⟩ : ∃ f, fuel = f + 1 := ⟨fuel - 1, by omega⟩
        have hinner := sib_flatten levels hs (levels.length - (s + 1)) s (s + 1) f
          (Nat.le_refl _) (by omega) (by omega) (by omega)
          (fun j h1 h2 => by omega)
        have hinvb : ∀ j, j < bnd levels s →
            levels.getD (bnd levels s) 0 ≤ levels.getD j 0 := by
          intro j h2
          by_cases hbn : bnd levels s < levels.length
          · have hc := hbcross hbn
            rcases Nat.lt_trichotomy j s with hjs | hjs | hjs
            · have := hinv j hjs
              omega
            · subst hjs
              omega
            · have := hbgt j (by omega) h2
              omega
          · have hz : levels.getD (bnd levels s) 0 = 0 := by
              rw [List.getD_eq_getElem?_getD, List.getElem?_eq_none (by omega)]
              rfl
            omega
        have houter := ih (bnd levels s) (f + 1) (by omega) hble (by omega) hinvb
        have hbeq : sibStop levels (levels.getD s 0) (s + 1) = bnd levels s := rfl
        rw [hsplit, List.map_cons]
        rw [show build_heading_node hs (chOf levels) (f + 1) s =
            ⟨hs.getD s ⟨0, []⟩,
              (chOf levels s).map (build_heading_node hs (chOf levels) f)⟩
            from rfl]
        rw [flattenForest_cons]
        rw [chOf_eq_chFrom levels s, hinner, houter, ← List.map_append]
        have hjoin : List.range' (s + 1)
              (sibStop levels (levels.getD s 0) (s + 1) - (s + 1)) ++
            List.range' (bnd levels s) (levels.length - bnd levels s) =
            List.range' (s + 1) (levels.length - (s + 1)) := by
          have h6 := List.range'_append_1 (s + 1)
            (sibStop levels (levels.getD s 0) (s + 1) - (s + 1))
            (levels.length - bnd levels s)
          rw [show (s + 1) + (sibStop levels (levels.getD s 0) (s + 1) - (s + 1)) =
              bnd levels s from by rw [hbeq]; omega] at h6
          rw [h6]
          congr 1
          omega
        rw [hjoin]
        rw [show List.range' s (levels.length - s) =
            s :: List.range' (s + 1) (levels.length - (s + 1)) from by
          rw [show levels.length - s = (levels.length - (s + 1)) + 1 by omega,
            List.range'_succ]]
        rfl

theorem map_getD_range (hs : List DocHeading) :
    (List.range hs.length).map (fun i => hs.getD i ⟨0, []⟩) = hs := by
  apply List.ext_getElem
  · simp
  · intro i h1 h2
    simp [List.getD_eq_getElem?_getD, List.getElem?_eq_getElem h2]

theorem flattenForest_build_tree (doc : Document) :
    flattenForest doc.build_tree = doc.headings := by
  have hlen : (doc.headings.map (fun h => h.level)).length = doc.headings.length :=
    List.length_map _ _
  have htree : doc.build_tree =
      (rootsOf (doc.headings.map (fun h => h.level))).map
        (build_heading_node doc.headings
          (chOf (doc.headings.map (fun h => h.level)))
          (doc.headings.length + 1)) := by
    unfold Document.build_tree
    rw [build_arena_eq]
    rfl
  have hroots : rootsOf (doc.headings.map (fun h => h.level)) =
      rootsFrom (doc.headings.map (fun h => h.level)) 0 := by
    rw [rootsOf, rootsFrom]
    apply List.filter_congr
    intro j hj
    cases nearestLT (doc.headings.map (fun h => h.level)) j <;> simp
  rw [htree, hroots]
  rw [roots_flatten (doc.headings.map (fun h => h.level)) doc.headings
    ((doc.headings.map (fun h => h.level)).length) 0 (doc.headings.length + 1)
    (by omega) (by omega) (by rw [hlen]; omega) (fun j hj => by omega)]
  rw [show List.range' 0 ((doc.headings.map (fun h => h.level)).length - 0) =
      List.range doc.headings.length from by
    rw [hlen, Nat.sub_zero, List.range_eq_range']]
  exact map_getD_range doc.headings

/-- `Document::find_heading` (`src/parser/document.rs`, lines 73–78):
first heading whose lowercased text equals the lowercased query. -/
def find_heading (hs : List DocHeading) (text : List Char) : Option DocHeading :=
  hs.find? (fun h => h.text.map Char.toLower == text.map Char.toLower)

/-- The search pattern of `extract_section`:
`format!("\x7b\x7d \x7b\x7d", "#".repeat(heading.level), heading.text)`. -/
def searchOf (h : DocHeading) : List Char :=
  List.replicate h.level '#' ++ ' ' :: h.text

/-- Rust `str::find` for a literal pattern: byte index of the first
occurrence of `needle` as a contiguous substring, if any. -/
def strFind (needle : List Char) : List Char → Option Nat
  | [] => if needle.isEmpty then some 0 else none
  | c :: t =>
      if needle.isPrefixOf (c :: t) then some 0
      else (strFind needle t).map (fun i => i + 1)

/-- The lines of a text together with the byte offset at which each line
starts (Rust `lines()` plus the `line.as_ptr() - after.as_ptr()` offset
arithmetic of `extract_section`): split on `'\n'`; every segment followed
by a `'\n'` loses one trailing `'\r'`; a final empty segment (text ending
in `'\n'`) yields no line; a final segment keeps a bare trailing `'\r'`. -/
def lineStartsAux (pos : Nat) : List (List Char) → List (Nat × List Char)
  | [] => []
  | [seg] => if seg.isEmpty then [] else [(pos, seg)]
  | seg :: s2 :: rest =>
      (pos, stripCR seg) :: lineStartsAux (pos + seg.length + 1) (s2 :: rest)

def linesWithPos (s : List Char) : List (Nat × List Char) :=
  lineStartsAux 0 (s.splitOn '\n')

/-- `get_heading_level` (`src/parser/document.rs`, lines 133–151), inner
loop: count leading `'#'`s; a whitespace character after at least one `'#'`
yields that count; any other character (or end of line, or whitespace with
no `'#'`s) yields `None`. -/
def headingLevelAux : List Char → Nat → Option Nat
  | [], _ => none
  | c :: t, level =>
      if c = '#' then headingLevelAux t (level + 1)
      else if c.isWhitespace then (if level > 0 then some level else none)
      else none

def get_heading_level (line : List Char) : Option Nat :=
  headingLevelAux (line.dropWhile Char.isWhitespace) 0

/-- Three backticks (U+0060), the fenced-code-block marker. -/
def fenceMarker : List Char := ['\x60', '\x60', '\x60']

/-- `line.trim_start().starts_with("\x60\x60\x60")`. -/
def fenceLine (line : List Char) : Bool :=
  fenceMarker.isPrefixOf (line.dropWhile Char.isWhitespace)

/-- The scan of `extract_section` (`src/parser/document.rs`, lines
104–127) over the lines after the heading line: toggle `in_code_block` on
each fence line (before the heading test), and stop at the first line that
is outside code blocks and is a heading of level `≤ lvl`, returning its
start offset; `dflt` (= `after.len()`) if none. -/
def sectionEndLoop (lvl dflt : Nat) : List (Nat × List Char) → Bool → Nat
  | [], _ => dflt
  | q :: rest, inCode =>
      let inCode' := if fenceLine q.2 then !inCode else inCode
      if inCode' = false then
        match get_heading_level q.2 with
        | some l => if l ≤ lvl then q.1 else sectionEndLoop lvl dflt rest inCode'
        | none => sectionEndLoop lvl dflt rest inCode'
      else sectionEndLoop lvl dflt rest inCode'

/-- `Document::extract_section` (`src/parser/document.rs`, lines 90–130):
find the heading case-insensitively, re-find its reconstructed source line
`"#"*level ++ " " ++ text` in the content, and return the slice from that
offset to the start of the next heading line of level `≤` outside fenced
code blocks (end of content if none). -/
def Document.extract_section (d : Document) (heading_text : List Char) :
    Option (List Char) :=
  match find_heading d.headings heading_text with
  | none => none
  | some h =>
    match strFind (searchOf h) d.content with
    | none => none
    | some start =>
      let after := d.content.drop start
      let e := sectionEndLoop h.level after.length
        ((linesWithPos after).drop 1) false
      some (after.take e)

/-- Spec-side end scan, following the amended claim's words: a line ends
the section when it is a heading of level `≤ lvl` and the number of fence
lines seen so far (itself included) is even. -/
def specEndScan (lvl dflt : Nat) : List (Nat × List Char) → Nat → Nat
  | [], _ => dflt
  | q :: rest, fences =>
      let fences' := if fenceLine q.2 then fences + 1 else fences
      if fences' % 2 = 0
          && Option.any (fun l => decide (l ≤ lvl)) (get_heading_level q.2)
      then q.1
      else specEndScan lvl dflt rest fences'

/-- Spec-side heading lookup, following the claim's words: the first
heading matching the query case-insensitively. -/
def specFindHeading (hs : List DocHeading) (text : List Char) :
    Option DocHeading :=
  hs.find? (fun h => h.text.map Char.toLower == text.map Char.toLower)

/-- Spec-side extract_section, following the AMENDED claim's words: `none`
when no heading matches case-insensitively or the reconstructed heading
line does not occur in the source; otherwise the region starting AT the
offset of the first occurrence of the reconstructed heading line (heading
line included) and ending at the start offset of the next later line that
is a heading of level `≤` the matched level and lies outside fenced code
blocks (end of source if none). -/
def specExtractSection (d : Document) (t : List Char) : Option (List Char) :=
  match specFindHeading d.headings t with
  | none => none
  | some h =>
    match strFind (searchOf h) d.content with
    | none => none
    | some off =>
      let after := d.content.drop off
      some (after.take
        (specEndScan h.level after.length ((linesWithPos after).drop 1) 0))

/-- The ORIGINAL claim's region, for the counterexample: identical except
that the region starts at the byte after the first newline following the
matched heading's offset (so the heading line itself is excluded). -/
def claimExtractSection (d : Document) (t : List Char) : Option (List Char) :=
  match specFindHeading d.headings t with
  | none => none
  | some h =>
    match strFind (searchOf h) d.content with
    | none => none
    | some off =>
      let after := d.content.drop off
      let e := specEndScan h.level after.length ((linesWithPos after).drop 1) 0
      let st := match after.findIdx? (fun c => c == '\n') with
        | some i => i + 1
        | none => after.length
      some ((after.take e).drop st)

/-- The running `in_code_block` boolean of the code's scan is the parity
of the spec's fence counter. -/
theorem sectionEndLoop_eq_spec (lvl dflt : Nat) :
    ∀ (ls : List (Nat × List Char)) (c : Nat),
      sectionEndLoop lvl dflt ls (decide (c % 2 = 1)) =
        specEndScan lvl dflt ls c := by
  intro ls
  induction ls with
  | nil => intro c; rfl
  | cons q rest ih =>
      intro c
      simp only [sectionEndLoop, specEndScan]
      have hpar : (if fenceLine q.2 then !(decide (c % 2 = 1))
            else decide (c % 2 = 1)) =
          decide ((if fenceLine q.2 then c + 1 else c) % 2 = 1) := by
        cases hf : fenceLine q.2
        · simp
        · simp only [hf, if_pos rfl]
          rcases Nat.mod_two_eq_zero_or_one c with h | h <;>
            simp [Nat.add_mod, h]
      rw [hpar]
      have ih' := ih (if fenceLine q.2 then c + 1 else c)
      rcases Nat.mod_two_eq_zero_or_one (if fenceLine q.2 then c + 1 else c)
        with h | h
      · have hb : decide ((if fenceLine q.2 then c + 1 else c) % 2 = 1)
            = false := by simp [h]
        have hb0 : decide ((if fenceLine q.2 then c + 1 else c) % 2 = 0)
            = true := by simp [h]
        rw [hb] at ih'
        rw [hb, hb0, if_pos rfl, Bool.true_and]
        cases hg : get_heading_level q.2 with
        | none => rw [if_neg (by simp)]; exact ih'
        | some l =>
            by_cases hl : l ≤ lvl
            · simp [hl]
            · simp only [Option.any_some, hl, decide_False, if_false,
                decide_eq_true_eq, if_neg hl]
              exact ih'
      · have hb : decide ((if fenceLine q.2 then c + 1 else c) % 2 = 1)
            = true := by simp [h]
        have hb0 : decide ((if fenceLine q.2 then c + 1 else c) % 2 = 0)
            = false := by simp [h]
        rw [hb] at ih'
        rw [hb, hb0, if_neg (by simp), Bool.false_and, if_neg (by simp)]
        exact ih'

/-- C1: corrected — `extract_section` returns `None` when no heading
matches case-insensitively or when the reconstructed heading line does not
occur in the source; otherwise it returns the region that starts at the
offset of the first occurrence of the reconstructed heading line (the
heading line is INCLUDED, not skipped) and ends at the start offset of the
next later line that is a heading of level `≤` the matched level outside
fenced code blocks, or at end of source if there is none. -/
theorem extract_section_amended (d : Document) (t : List Char) :
    d.extract_section t = specExtractSection d t := by
  unfold Document.extract_section specExtractSection find_heading
    specFindHeading
  cases d.headings.find?
      (fun h => h.text.map Char.toLower == t.map Char.toLower) with
  | none => rfl
  | some h =>
      simp only
      cases strFind (searchOf h) d.content with
      | none => rfl
      | some off =>
          simp only
          rw [show (false : Bool) = decide (0 % 2 = 1) from rfl,
            sectionEndLoop_eq_spec]

/-- C1 counterexample: on the document `"# A\nbody\n"` with its single
heading `A` at level 1, the code returns the whole source including the
heading line, while the claim's region (starting after the first newline
following the heading) is just `"body\n"`. -/
theorem extract_section_claim_counterexample :
    Document.extract_section ⟨("# A\nbody\n").data, [⟨1, ("A").data⟩]⟩
        (("a").data) = some (("# A\nbody\n").data) ∧
    claimExtractSection ⟨("# A\nbody\n").data, [⟨1, ("A").data⟩]⟩
        (("a").data) = some (("body\n").data) ∧
    some (("# A\nbody\n").data) ≠ some (("body\n").data) := by
  refine ⟨by decide, by decide, by decide⟩

/-- C4: `build_tree` decorates the arena produced by the stack scan, whose
roots are exactly the indices with no preceding strictly-smaller-level
heading, in source order, and whose child list at `p` consists exactly of
the indices whose nearest preceding strictly-smaller-level heading is `p`,
in source order; moreover the preorder flattening of the resulting forest
is exactly the document's heading list, so every heading appears exactly
once, in source order, attached under its nearest preceding lower-level
heading or as a root when none exists. -/
theorem build_tree_spec (doc : Document) :
    (doc.build_tree =
      (build_arena (doc.headings.map (fun h => h.level))).roots.map
        (build_heading_node doc.headings
          (build_arena (doc.headings.map (fun h => h.level))).children
          (doc.headings.length + 1))) ∧
    ((build_arena (doc.headings.map (fun h => h.level))).roots =
      (List.range doc.headings.length).filter
        (fun j => (nearestLT (doc.headings.map (fun h => h.level)) j).isNone)) ∧
    (∀ p, (build_arena (doc.headings.map (fun h => h.level))).children p =
      (List.range doc.headings.length).filter
        (fun j =>
          decide (nearestLT (doc.headings.map (fun h => h.level)) j = some p))) ∧
    flattenForest doc.build_tree = doc.headings := by
  refine ⟨rfl, ?_, ?_, flattenForest_build_tree doc⟩
  · rw [build_arena_eq]
    rw [show (invState (doc.headings.map (fun h => h.level))
        (doc.headings.map (fun h => h.level)).length).roots =
      (List.range (doc.headings.map (fun h => h.level)).length).filter
        (fun j => (nearestLT (doc.headings.map (fun h => h.level)) j).isNone)
      from rfl]
    rw [List.length_map]
  · intro p
    rw [build_arena_eq]
    rw [show (invState (doc.headings.map (fun h => h.level))
        (doc.headings.map (fun h => h.level)).length).children p =
      (List.range (doc.headings.map (fun h => h.level)).length).filter
        (fun j =>
          decide (nearestLT (doc.headings.map (fun h => h.level)) j = some p))
      from rfl]
    rw [List.length_map]

end Treemd
